import Mathlib

/-!
Verification of the normalization + matching engine of `app_anvisa.py`
(function `normalize`, loaders `load_db` / `load_alias`, and the matcher
`search_ingredients`) against its natural-language specification.

Modelling conventions:
* Python strings are modelled as `List Char` (wrapped in `String` at the
  boundary); a pandas cell that may be NaN is `Option String` with `none`
  standing for the missing value, and `pyStrOfCell` reproduces the
  `str()` / `.astype(str)` coercion, under which NaN becomes `"nan"`.
* `re.sub(r"\s+", " ", ·)` is `pyCollapseWS`; `str.strip(chars)` is
  `pyStrip` (removes every leading and every trailing character of the
  set); `str.replace(pat, rep)` for the three slash patterns is the
  left-to-right non-overlapping scanners `repA`, `repB`, `repC`, and the
  loop replacing the three dash variants is the character map `repDash`.
* `unidecode` is modelled by `unidecodeChar`: identity on ASCII, a finite
  transliteration table (`uniPairs`) for the non-ASCII characters
  exercised here, and the library's unmapped-character default (empty
  string) otherwise.  `str.lower` is modelled by `toLowerChar`, the
  ASCII case table; inside `normalize` it is only ever applied to the
  ASCII output of `unidecode`, where this model is exact.
* `pandas.Series.str.contains(pat)` compiles `pat` as a regular
  expression (the pandas default `regex=True`) and runs `re.search` on
  every element.  `reParse` models Python's regex parser on the fragment
  exercised by the program: literals, groups, alternation, `*`, `+`,
  `?`, and escaped punctuation, with the genuine `re.error` conditions
  for unbalanced parentheses and dangling quantifiers; the constructs
  outside the model (`.`, anchors, character classes, braces, escape
  classes) are reported as parse errors and no theorem below depends on
  them.  `reSearch` is `re.search` (a match anywhere in the string) via
  Mathlib's verified `RegularExpression.rmatch`.
-/

namespace Anvisa

/-! ### Character tables -/

/-- Whitespace characters recognised by Python's `str.strip()` and by the
regex class `\s` on `str` input (ASCII whitespace, the C1 separators,
NEL, NBSP and the Unicode space separators). -/
def wsChars : List Char :=
  [' ', '\t', '\n', '\r', '\x0B', '\x0C', '\x1C', '\x1D', '\x1E', '\x1F',
   '\x85', '\xA0', '\u1680', '\u2000', '\u2001', '\u2002', '\u2003',
   '\u2004', '\u2005', '\u2006', '\u2007', '\u2008', '\u2009', '\u200A',
   '\u2028', '\u2029', '\u202F', '\u205F', '\u3000']

def isPySpace (c : Char) : Bool := wsChars.contains c

/-- ASCII case-folding table of `str.lower`; inside `normalize` the
lower-casing step only ever receives ASCII text (it runs after
`unidecode`), where this table is exactly Python's behaviour. -/
def lowerPairs : List (Char × Char) :=
  [('A', 'a'), ('B', 'b'), ('C', 'c'), ('D', 'd'), ('E', 'e'), ('F', 'f'),
   ('G', 'g'), ('H', 'h'), ('I', 'i'), ('J', 'j'), ('K', 'k'), ('L', 'l'),
   ('M', 'm'), ('N', 'n'), ('O', 'o'), ('P', 'p'), ('Q', 'q'), ('R', 'r'),
   ('S', 's'), ('T', 't'), ('U', 'u'), ('V', 'v'), ('W', 'w'), ('X', 'x'),
   ('Y', 'y'), ('Z', 'z')]

def toLowerChar (c : Char) : Char :=
  match lowerPairs.find? (fun p => p.1 = c) with
  | some p => p.2
  | none => c

/-- Transliteration table of the `unidecode` library for the non-ASCII
characters exercised in this development: Latin letters with diacritics
map to their base letter, curly quotes to straight quotes, dash variants
to a hyphen, and CJK ideographs to pinyin followed by a space (e.g.
`unidecode("中") == "Zhong "`). -/
def uniPairs : List (Char × String) :=
  [('á', "a"), ('à', "a"), ('â', "a"), ('ã', "a"), ('ä', "a"), ('å', "a"),
   ('é', "e"), ('è', "e"), ('ê', "e"), ('ë', "e"),
   ('í', "i"), ('ì', "i"), ('î', "i"), ('ï', "i"),
   ('ó', "o"), ('ò', "o"), ('ô', "o"), ('õ', "o"), ('ö', "o"),
   ('ú', "u"), ('ù', "u"), ('û', "u"), ('ü', "u"),
   ('ç', "c"), ('ñ', "n"),
   ('Á', "A"), ('É', "E"), ('Í', "I"), ('Ó', "O"), ('Ú', "U"),
   ('Ã', "A"), ('Õ', "O"), ('Ç', "C"), ('Ñ', "N"), ('Ü', "U"),
   ('“', "\""), ('”', "\""), ('‘', "\x27"), ('’', "\x27"),
   ('–', "-"), ('—', "-"), ('−', "-"),
   ('中', "Zhong "), ('文', "Wen "), ('国', "Guo ")]

/-- Character-wise model of `unidecode`: ASCII passes through unchanged,
table characters transliterate, and unmapped non-ASCII characters are
dropped (the library's default for untransliterable input). -/
def unidecodeChar (c : Char) : List Char :=
  if c.toNat < 128 then [c]
  else
    match uniPairs.find? (fun p => p.1 = c) with
    | some p => p.2.data
    | none => []

/-! ### The normalization pipeline (`normalize`, lines 25-38) -/

/-- Scanner for `re.sub(r"\s+", " ", text)`: every maximal run of
whitespace becomes a single ASCII space.  The flag records whether the
previous character belonged to a whitespace run already replaced. -/
def collapseGo : Bool → List Char → List Char
  | _, [] => []
  | inRun, c :: t =>
    if isPySpace c then
      if inRun then collapseGo true t else ' ' :: collapseGo true t
    else c :: collapseGo false t

def pyCollapseWS (l : List Char) : List Char := collapseGo false l

/-- Removal of every trailing character satisfying `p` (the right half of
Python's `str.strip`). -/
def stripEnd (p : Char → Bool) : List Char → List Char
  | [] => []
  | c :: t =>
    match stripEnd p t with
    | [] => if p c then [] else [c]
    | r => c :: r

/-- Python `str.strip(chars)`: removes every leading and every trailing
character satisfying `p`. -/
def pyStrip (p : Char → Bool) (l : List Char) : List Char :=
  stripEnd p (l.dropWhile p)

/-- Line 32 of the source: `text.strip().strip('"').strip("'")`. -/
def stripStep (l : List Char) : List Char :=
  pyStrip (fun c => c = '\x27') (pyStrip (fun c => c = '"') (pyStrip isPySpace l))

/-- Python `text.replace(" / ", "/")` as a left-to-right scanner over the
original string (replacements are emitted, never rescanned). -/
def repA : List Char → List Char
  | a :: b :: c :: t =>
    if a = ' ' ∧ b = '/' ∧ c = ' ' then '/' :: repA t else a :: repA (b :: c :: t)
  | l => l

/-- Python `text.replace(" /", "/")`. -/
def repB : List Char → List Char
  | a :: b :: t => if a = ' ' ∧ b = '/' then '/' :: repB t else a :: repB (b :: t)
  | l => l

/-- Python `text.replace("/ ", "/")`. -/
def repC : List Char → List Char
  | a :: b :: t => if a = '/' ∧ b = ' ' then '/' :: repC t else a :: repC (b :: t)
  | l => l

/-- Lines 34-35: the loop replacing the en dash, em dash and minus sign
by the ASCII hyphen.  The three single-character `replace` calls compose
into one character map because their patterns are distinct and the
replacement `'-'` is none of them. -/
def repDash (l : List Char) : List Char :=
  l.map fun c => if c = '–' ∨ c = '—' ∨ c = '−' then '-' else c

/-- Core of `normalize` on character lists, in the exact source order:
collapse whitespace, strip (whitespace, then every edge `"`, then every
edge `'`), normalize slash spacing, replace dashes, transliterate,
lower-case. -/
def normCore (l : List Char) : List Char :=
  ((repDash (repC (repB (repA (stripStep (pyCollapseWS l)))))).flatMap
      unidecodeChar).map toLowerChar

/-- The source's `normalize` on string input (`str(text)` is the identity
there). -/
def normalize (s : String) : String := String.mk (normCore s.data)

/-- The source's `normalize` including the `if text is None: return ""`
guard; `none` models Python `None`.  Any non-string argument is first
coerced by `str(·)`, so `Option String` covers all Python inputs. -/
def normalizeOpt : Option String → String
  | none => ""
  | some s => normalize s

/-! ### Regular expressions (pandas `str.contains`, default `regex=True`) -/

abbrev RE := RegularExpression Char

deriving instance DecidableEq for RegularExpression

/-- Characters that are special in a Python regular expression. -/
def reMeta : List Char :=
  ['.', '^', '$', '*', '+', '?', '\x7b', '\x7d', '[', ']', '\\', '|', '(', ')']

def metacharFree (l : List Char) : Bool := l.all fun c => !(reMeta.contains c)

/-- Concatenation of the parsed atoms of one alternative (the atom list
is kept most-recent-first while parsing). -/
def mkSeq (seq : List (RE × Bool)) : RE :=
  (seq.reverse.map Prod.fst).foldr (· * ·) 1

/-- Alternation of the finished alternatives with the final one. -/
def mkAlts (alts : List RE) (last : RE) : RE :=
  alts.foldr (· + ·) last

/-- End-of-pattern handling of the parser: an open group means the
genuine `re.error` for an unterminated subpattern. -/
def pEnd (stack : List (List RE × List (RE × Bool))) (alts : List RE)
    (seq : List (RE × Bool)) : Except String RE :=
  match stack with
  | [] => .ok (mkAlts alts (mkSeq seq))
  | _ :: _ => .error "missing ), unterminated subpattern"

/-- One single-character token of the parser: the next state (stack of
enclosing groups, finished alternatives, atoms of the current
alternative, most recent first and flagged if already quantified), or
the `re.error` it raises.  Faithful to Python: unbalanced parentheses
and dangling or doubled quantifiers raise; `]` and `\x7d` are literals.
`.`, `^`, `$`, `[` and `\x7b` are outside the model and reported as
errors; no theorem depends on them. -/
def pStep1 (c : Char) (stack : List (List RE × List (RE × Bool))) (alts : List RE)
    (seq : List (RE × Bool)) :
    Except String (List (List RE × List (RE × Bool)) × List RE × List (RE × Bool)) :=
  if c = '(' then .ok ((alts, seq) :: stack, [], [])
  else if c = ')' then
    match stack with
    | [] => .error "unbalanced parenthesis"
    | (alts0, seq0) :: stack2 =>
      .ok (stack2, alts0, (mkAlts alts (mkSeq seq), false) :: seq0)
  else if c = '|' then .ok (stack, alts ++ [mkSeq seq], [])
  else if c = '*' then
    match seq with
    | [] => .error "nothing to repeat"
    | (_, true) :: _ => .error "multiple repeat"
    | (a, false) :: seq2 => .ok (stack, alts, (a.star, true) :: seq2)
  else if c = '+' then
    match seq with
    | [] => .error "nothing to repeat"
    | (_, true) :: _ => .error "multiple repeat"
    | (a, false) :: seq2 => .ok (stack, alts, (a * a.star, true) :: seq2)
  else if c = '?' then
    match seq with
    | [] => .error "nothing to repeat"
    | (_, true) :: _ => .error "multiple repeat"
    | (a, false) :: seq2 => .ok (stack, alts, (a + 1, true) :: seq2)
  else if c = '.' ∨ c = '^' ∨ c = '$' ∨ c = '[' ∨ c = '\x7b' then
    .error "construct not modelled"
  else .ok (stack, alts, (RegularExpression.char c, false) :: seq)

/-- Recursive-descent model of `re.compile` on the fragment exercised by
the program.  A backslash consumes two characters (an escaped
punctuation character is a literal; alphanumeric escape classes are
outside the model); every other character is one `pStep1` token. -/
def parseGo : List Char → List (List RE × List (RE × Bool)) → List RE →
    List (RE × Bool) → Except String RE
  | [], stack, alts, seq => pEnd stack alts seq
  | '\\' :: rest, stack, alts, seq =>
    match rest with
    | [] => .error "bad escape (end of pattern)"
    | e :: rest2 =>
      if e.isAlphanum then .error "escape class not modelled"
      else parseGo rest2 stack alts ((RegularExpression.char e, false) :: seq)
  | c :: rest, stack, alts, seq =>
    match pStep1 c stack alts seq with
    | .error e => .error e
    | .ok (stack2, alts2, seq2) => parseGo rest stack2 alts2 seq2

def reParse (l : List Char) : Except String RE := parseGo l [] [] []

/-- Model of `re.search`: the pattern matches some contiguous substring
of `l` (Python scans every start position for a match). -/
def reSearch (r : RE) (l : List Char) : Bool :=
  l.tails.any fun t => t.inits.any fun i => r.rmatch i

/-- The regular expression matching exactly the literal string `l`; a
metacharacter-free pattern parses to it. -/
def litRE (l : List Char) : RE :=
  (l.map RegularExpression.char).foldr (· * ·) 1

/-- Substring containment as the specification words it ("contains the
canonical query as a (literal) substring"); the spec-side notion to be
compared with the code's regex containment. -/
def specSubstring (p s : String) : Bool := decide (p.data <:+: s.data)

/-! ### Data loading (`load_db` lines 43-59, `load_alias` lines 62-76) -/

/-- One raw row of the reference spreadsheet.  `none` in `name` or `cas`
models a missing (NaN) cell; `aux` carries the opaque descriptive
columns. -/
structure RefRow where
  name : Option String
  cas : Option String
  aux : List (String × String)
deriving DecidableEq, Repr

/-- The raw reference table: which of the two recognised columns exist,
plus the rows. -/
structure RefTable where
  hasIngredientCol : Bool
  hasCASCol : Bool
  rows : List RefRow
deriving DecidableEq, Repr

/-- Python `str()` / `.astype(str)` on a possibly-NaN cell: the missing
value prints as the string `"nan"`. -/
def pyStrOfCell : Option String → String
  | none => "nan"
  | some s => s

/-- One reference record after `load_db`: the original row, the `CAS`
column after the `astype(str)` mutation, and the two cached canonical
keys (`__norm_ingredient`, and `__norm_cas` when the CAS column
exists). -/
structure IRow where
  row : RefRow
  casText : Option String
  normIngredient : String
  normCAS : Option String
deriving DecidableEq, Repr

/-- The in-memory reference index produced by `load_db`. -/
structure RefDB where
  hasCASCol : Bool
  rows : List IRow
deriving DecidableEq, Repr

def buildRow (hasCAS : Bool) (r : RefRow) : IRow :=
  { row := r
    casText := if hasCAS then some (pyStrOfCell r.cas) else none
    normIngredient := normalize (pyStrOfCell r.name)
    normCAS := if hasCAS then some (normalize (pyStrOfCell r.cas)) else none }

/-- Outcome of `load_db`: missing file, `st.stop()` on the missing
mandatory column, or the built index. -/
inductive LoadResult where
  | noFile
  | schemaStop
  | ok (db : RefDB)
deriving DecidableEq, Repr

def load_db : Option RefTable → LoadResult
  | none => .noFile
  | some t =>
    if t.hasIngredientCol then
      .ok { hasCASCol := t.hasCASCol, rows := t.rows.map (buildRow t.hasCASCol) }
    else .schemaStop

/-- The raw alias table; rows are (alias cell, official cell). -/
structure AliasTable where
  hasAliasCol : Bool
  hasOfficialCol : Bool
  rows : List (Option String × Option String)
deriving DecidableEq, Repr

/-- One alias entry after `load_alias`: both cells coerced to text plus
their cached canonical keys. -/
structure AliasRow where
  aliasText : String
  officialText : String
  normAlias : String
  normOfficial : String
deriving DecidableEq, Repr

def load_alias : Option AliasTable → List AliasRow
  | none => []
  | some t =>
    if t.hasAliasCol && t.hasOfficialCol then
      t.rows.map fun p =>
        { aliasText := pyStrOfCell p.1
          officialText := pyStrOfCell p.2
          normAlias := normalize (pyStrOfCell p.1)
          normOfficial := normalize (pyStrOfCell p.2) }
    else []

/-! ### The matcher (`search_ingredients`, lines 81-105) -/

/-- Order-preserving deduplication, as pandas `Series.unique()`. -/
def uniqueGo (seen : List String) : List String → List String
  | [] => []
  | a :: t => if seen.contains a then uniqueGo seen t else a :: uniqueGo (a :: seen) t

def uniqueKeep (l : List String) : List String := uniqueGo [] l

/-- Path A, per record: `df["__norm_ingredient"].str.contains(norm_q)`. -/
def ingHit (r : RE) (x : IRow) : Bool := reSearch r x.normIngredient.data

/-- Path B, per record: the CAS mask when the `__norm_cas` column exists,
`False` otherwise. -/
def casHit (hasCAS : Bool) (r : RE) (x : IRow) : Bool :=
  hasCAS && reSearch r (x.normCAS.getD "").data

/-- The deduplicated canonical official keys of the alias entries hit by
the query (`alias_hits["__norm_official"].unique()`). -/
def aliasOfficials (aliasIdx : List AliasRow) (r : RE) : List String :=
  uniqueKeep ((aliasIdx.filter fun a => reSearch r a.normAlias.data).map
    fun a => a.normOfficial)

/-- Path C, per record: `isin(target_official_norms)` guarded by the two
emptiness checks of the source. -/
def aliasHit (aliasIdx : List AliasRow) (r : RE) (x : IRow) : Bool :=
  if aliasIdx.isEmpty then false
  else if (aliasOfficials aliasIdx r).isEmpty then false
  else (aliasOfficials aliasIdx r).contains x.normIngredient

/-- The combined mask `mask_ing | mask_cas | mask_alias`, per record. -/
def rowHit (db : RefDB) (aliasIdx : List AliasRow) (r : RE) (x : IRow) : Bool :=
  ingHit r x || casHit db.hasCASCol r x || aliasHit aliasIdx r x

/-- The matcher.  Result rows keep their original index (`df[final_mask]`
preserves the frame's row order and labels); a regex compilation error
inside `str.contains` propagates as `Except.error`, modelling the raised
`re.error`. -/
def search_ingredients (db : RefDB) (aliasIdx : List AliasRow) (query : String) :
    Except String (List (Nat × IRow)) :=
  if normalize query = "" then .ok []
  else
    match reParse (normalize query).data with
    | .error e => .error e
    | .ok r => .ok (db.rows.enum.filter fun p => rowHit db aliasIdx r p.2)

/-- Decidable equality of `Except` values, used to evaluate concrete
matcher results. -/
instance {ε α : Type} [DecidableEq ε] [DecidableEq α] : DecidableEq (Except ε α) :=
  fun a b =>
    match a, b with
    | .error e, .error f => decidable_of_iff (e = f) (by simp)
    | .error _, .ok _ => isFalse Except.noConfusion
    | .ok _, .error _ => isFalse Except.noConfusion
    | .ok x, .ok y => decidable_of_iff (x = y) (by simp)

/-! ### Spec-side comparison definitions -/

/-- Modelled from the spec: the "correct direct-name and registry-number
matches" of §4.4 steps 2-3 and §8 property 8 — the records whose
canonical-name-key, or canonical-registry-key when present, contains the
canonical query as a literal substring, kept in row order. -/
def specDirect (db : RefDB) (nq : String) : List (Nat × IRow) :=
  if nq = "" then []
  else
    db.rows.enum.filter fun p =>
      specSubstring nq p.2.normIngredient ||
        (db.hasCASCol && specSubstring nq (p.2.normCAS.getD ""))

/-! ### Normal-form predicates for the idempotence analysis -/

/-- Characters allowed by the amended idempotence claim: ASCII and not a
straight quote character. -/
def okChar (c : Char) : Bool := c.toNat < 128 && c ≠ '"' && c ≠ '\x27'

def wsOk (l : List Char) : Bool := l.all fun c => !isPySpace c || c = ' '

/-- No two adjacent whitespace characters. -/
def noTwoSp : List Char → Bool
  | a :: b :: t => !(isPySpace a && isPySpace b) && noTwoSp (b :: t)
  | _ => true

def headNotWS : List Char → Bool
  | [] => true
  | c :: _ => !isPySpace c

def lastNotWS (l : List Char) : Bool :=
  match l.getLast? with
  | some c => !isPySpace c
  | none => true

def noQuote (l : List Char) : Bool := l.all fun c => c ≠ '"' && c ≠ '\x27'

def asciiOnly (l : List Char) : Bool := l.all fun c => c.toNat < 128

/-- Occurrence of the adjacent pair `a, b` somewhere in the list. -/
def occ2 (a b : Char) : List Char → Bool
  | x :: y :: t => (x = a && y = b) || occ2 a b (y :: t)
  | _ => false

def lowFix (l : List Char) : Bool := l.all fun c => toLowerChar c = c

/-! ### Concrete instances for counterexamples and witnesses -/

def rowA : RefRow := { name := some "aaa", cas := none, aux := [] }

def tblA : RefTable := { hasIngredientCol := true, hasCASCol := false, rows := [rowA] }

def irowA : IRow :=
  { row := rowA, casText := none, normIngredient := "aaa", normCAS := none }

def dbA : RefDB := { hasCASCol := false, rows := [irowA] }

def rowN : RefRow := { name := some "Vitamina C", cas := none, aux := [] }

def tblN : RefTable := { hasIngredientCol := true, hasCASCol := true, rows := [rowN] }

def irowN : IRow :=
  { row := rowN, casText := some "nan", normIngredient := "vitamina c",
    normCAS := some "nan" }

def dbN : RefDB := { hasCASCol := true, rows := [irowN] }

def al5 : AliasRow :=
  { aliasText := "aaa", officialText := "xyz", normAlias := "aaa", normOfficial := "xyz" }

def row5 : RefRow := { name := some "xyz", cas := none, aux := [] }

def tbl5 : RefTable := { hasIngredientCol := true, hasCASCol := false, rows := [row5] }

def irow5 : IRow :=
  { row := row5, casText := none, normIngredient := "xyz", normCAS := none }

def db5 : RefDB := { hasCASCol := false, rows := [irow5] }

/-- The parse of the pattern `aa+`: literal `a`, then `a+`. -/
def r5 : RE :=
  RegularExpression.char 'a' *
    ((RegularExpression.char 'a' * (RegularExpression.char 'a').star) * 1)

def row9 : RefRow := { name := some "a+b", cas := none, aux := [] }

def tbl9 : RefTable := { hasIngredientCol := true, hasCASCol := false, rows := [row9] }

def irow9 : IRow :=
  { row := row9, casText := none, normIngredient := "a+b", normCAS := none }

def db9 : RefDB := { hasCASCol := false, rows := [irow9] }

def alW : AliasRow :=
  { aliasText := "Acido Ascorbico", officialText := "Vitamina C",
    normAlias := "acido ascorbico", normOfficial := "vitamina c" }

def rowW : RefRow := { name := some "Vitamina C", cas := some "50-81-7", aux := [] }

def irowW : IRow :=
  { row := rowW, casText := some "50-81-7", normIngredient := "vitamina c",
    normCAS := some "50-81-7" }

def dbW : RefDB := { hasCASCol := true, rows := [irowW] }

/-- An alias table missing the `Official` column. -/
def atM : AliasTable :=
  { hasAliasCol := true, hasOfficialCol := false, rows := [(some "x", some "y")] }

/-! ## Helper lemmas: literal patterns and `re.search` -/

theorem litRE_rmatch (l : List Char) : ∀ x, (litRE l).rmatch x = true ↔ x = l := by
  induction l with
  | nil =>
    intro x
    exact RegularExpression.one_rmatch_iff x
  | cons c t ih =>
    intro x
    show (RegularExpression.char c * litRE t).rmatch x = true ↔ x = c :: t
    rw [RegularExpression.mul_rmatch_iff]
    constructor
    · rintro ⟨u, v, rfl, hu, hv⟩
      rw [RegularExpression.char_rmatch_iff] at hu
      rw [ih] at hv
      rw [hu, hv]
      rfl
    · rintro rfl
      exact ⟨[c], t, rfl, by rw [RegularExpression.char_rmatch_iff],
        (ih t).mpr rfl⟩

theorem reSearch_litRE (p l : List Char) : reSearch (litRE p) l = true ↔ p <:+: l := by
  unfold reSearch
  rw [List.any_eq_true]
  constructor
  · rintro ⟨t, ht, h⟩
    rw [List.any_eq_true] at h
    obtain ⟨i, hi, hm⟩ := h
    rw [litRE_rmatch] at hm
    subst hm
    exact List.infix_iff_prefix_suffix.mpr
      ⟨t, (List.mem_inits _ _).mp hi, (List.mem_tails _ _).mp ht⟩
  · intro h
    obtain ⟨t, hpt, htl⟩ := List.infix_iff_prefix_suffix.mp h
    exact ⟨t, (List.mem_tails _ _).mpr htl,
      List.any_eq_true.mpr ⟨p, (List.mem_inits _ _).mpr hpt, (litRE_rmatch p p).mpr rfl⟩⟩

theorem meta_not (c : Char) (h : reMeta.contains c = false) :
    c ≠ '(' ∧ c ≠ ')' ∧ c ≠ '|' ∧ c ≠ '*' ∧ c ≠ '+' ∧ c ≠ '?' ∧ c ≠ '\\' ∧
      ¬(c = '.' ∨ c = '^' ∨ c = '$' ∨ c = '[' ∨ c = '\x7b') := by
  refine ⟨?_, ?_, ?_, ?_, ?_, ?_, ?_, ?_⟩
  · rintro rfl; exact absurd h (by decide)
  · rintro rfl; exact absurd h (by decide)
  · rintro rfl; exact absurd h (by decide)
  · rintro rfl; exact absurd h (by decide)
  · rintro rfl; exact absurd h (by decide)
  · rintro rfl; exact absurd h (by decide)
  · rintro rfl; exact absurd h (by decide)
  · rintro (rfl | rfl | rfl | rfl | rfl) <;> exact absurd h (by decide)

theorem parseGo_lit (l : List Char) (h : metacharFree l = true) :
    ∀ seq, parseGo l [] [] seq =
      .ok (mkSeq (l.reverse.map (fun c => (RegularExpression.char c, false)) ++ seq)) := by
  induction l with
  | nil =>
    intro seq
    rfl
  | cons c t ih =>
    intro seq
    have hc : reMeta.contains c = false := by
      unfold metacharFree at h
      rw [List.all_cons, Bool.and_eq_true] at h
      simpa using h.1
    have ht : metacharFree t = true := by
      unfold metacharFree at h ⊢
      rw [List.all_cons, Bool.and_eq_true] at h
      exact h.2
    obtain ⟨h1, h2, h3, h4, h5, h6, h7, h8⟩ := meta_not c hc
    show parseGo (c :: t) [] [] seq = _
    rw [parseGo.eq_4 _ _ _ c t h7]
    have hstep : pStep1 c [] [] seq =
        .ok ([], [], (RegularExpression.char c, false) :: seq) := by
      unfold pStep1
      rw [if_neg h1, if_neg h2, if_neg h3, if_neg h4, if_neg h5, if_neg h6,
        if_neg h8]
    rw [hstep]
    show parseGo t [] [] ((RegularExpression.char c, false) :: seq) = _
    rw [ih ht ((RegularExpression.char c, false) :: seq)]
    congr 1
    simp [List.reverse_cons, List.map_append, List.append_assoc]

theorem reParse_lit (l : List Char) (h : metacharFree l = true) :
    reParse l = .ok (litRE l) := by
  rw [reParse, parseGo_lit l h [], List.append_nil]
  congr 1
  unfold mkSeq litRE
  rw [show (l.reverse.map fun c => (RegularExpression.char c, false)) =
      ((l.map fun c => (RegularExpression.char c, false))).reverse from
      List.map_reverse _ _]
  rw [List.reverse_reverse, List.map_map]
  rfl

theorem specSubstring_iff (p s : String) :
    specSubstring p s = true ↔ p.data <:+: s.data := by
  simp [specSubstring]

theorem ingHit_lit (p : List Char) (x : IRow) :
    ingHit (litRE p) x = specSubstring (String.mk p) x.normIngredient := by
  rw [Bool.eq_iff_iff]
  unfold ingHit
  rw [reSearch_litRE, specSubstring_iff]

/-! ## Helper lemmas: the matcher -/

theorem search_ok_sublist (db : RefDB) (aliasIdx : List AliasRow) (q : String)
    (res : List (Nat × IRow)) (h : search_ingredients db aliasIdx q = .ok res) :
    res.Sublist db.rows.enum := by
  unfold search_ingredients at h
  split at h
  · cases h
    exact List.nil_sublist _
  · split at h
    · cases h
    · cases h
      exact List.filter_sublist _

/-- C6: whenever the matcher returns a result set, every reference record
(identified by its row index) appears in it at most once — the boolean
mask selects each row of the frame once, whatever combination of the
three paths fired. -/
theorem C6_theorem (db : RefDB) (aliasIdx : List AliasRow) (q : String)
    (res : List (Nat × IRow)) (h : search_ingredients db aliasIdx q = .ok res) :
    (res.map Prod.fst).Nodup := by
  have hs : (res.map Prod.fst).Sublist (db.rows.enum.map Prod.fst) :=
    (search_ok_sublist db aliasIdx q res h).map _
  rw [List.enum_map_fst] at hs
  exact List.Nodup.sublist hs (List.nodup_range _)

/-- Witness for C6 at a concrete index, alias table and query. -/
theorem C6_witness :
    search_ingredients dbW [alW] "vitamina" = .ok [(0, irowW)] ∧
      (([((0 : Nat), irowW)] : List (Nat × IRow)).map Prod.fst).Nodup :=
  ⟨by decide, C6_theorem dbW [alW] "vitamina" [(0, irowW)] (by decide)⟩

/-- C8: whenever the matcher returns a result set, the selected records
appear in strictly increasing row order of the underlying reference
table — boolean-mask filtering preserves the frame's row order. -/
theorem C8_theorem (db : RefDB) (aliasIdx : List AliasRow) (q : String)
    (res : List (Nat × IRow)) (h : search_ingredients db aliasIdx q = .ok res) :
    (res.map Prod.fst).Pairwise (· < ·) := by
  have hs : (res.map Prod.fst).Sublist (db.rows.enum.map Prod.fst) :=
    (search_ok_sublist db aliasIdx q res h).map _
  rw [List.enum_map_fst] at hs
  exact List.Pairwise.sublist hs (List.pairwise_lt_range _)

/-- Witness for C8 at a concrete index, alias table and query. -/
theorem C8_witness :
    search_ingredients dbW [alW] "50-81-7" = .ok [(0, irowW)] ∧
      (([((0 : Nat), irowW)] : List (Nat × IRow)).map Prod.fst).Pairwise (· < ·) :=
  ⟨by decide, C8_theorem dbW [alW] "50-81-7" [(0, irowW)] (by decide)⟩

/-- C1 fails as stated: the canonical query `aa+` is not a literal
substring of the canonical name `aaa`, yet Path A selects the record,
because pandas `str.contains` interprets the query as a regular
expression (`a` followed by one or more `a`). -/
theorem C1_counterexample :
    load_db (some tblA) = .ok dbA ∧
      search_ingredients dbA [] "aa+" = .ok [(0, irowA)] ∧
      specSubstring (normalize "aa+") irowA.normIngredient = false := by
  decide

/-- C1 (amended): Path A selects the records whose canonical-name-key
contains a match of the canonical query read as a regular expression;
when the canonical query contains no regex metacharacter the pattern
compiles to its literal and the selection is exactly literal substring
containment. -/
theorem C1_theorem (q : String) (x : IRow)
    (h : metacharFree (normalize q).data = true) :
    reParse (normalize q).data = .ok (litRE (normalize q).data) ∧
      ingHit (litRE (normalize q).data) x =
        specSubstring (normalize q) x.normIngredient :=
  ⟨reParse_lit _ h, ingHit_lit (normalize q).data x⟩

/-- Witness for C1 at a concrete metacharacter-free query and record. -/
theorem C1_witness :
    metacharFree (normalize "abc").data = true ∧
      (reParse (normalize "abc").data = .ok (litRE (normalize "abc").data) ∧
        ingHit (litRE (normalize "abc").data) irowA =
          specSubstring (normalize "abc") irowA.normIngredient) :=
  ⟨by decide, C1_theorem "abc" irowA (by decide)⟩

/-- C4 fails as stated: the query `(` has a non-empty canonical form, and
`str.contains` then raises `re.error: missing ), unterminated
subpattern` instead of returning a result set. -/
theorem C4_counterexample :
    search_ingredients dbA [] "(" = .error "missing ), unterminated subpattern" := by
  decide

/-- C4 (amended): the matcher is total and returns a (possibly empty)
result set for every query whose canonical form is free of regex
metacharacters; queries whose canonical form contains metacharacters are
interpreted as regular expressions and the malformed ones raise. -/
theorem C4_theorem (db : RefDB) (aliasIdx : List AliasRow) (q : String)
    (h : metacharFree (normalize q).data = true) :
    ∃ res, search_ingredients db aliasIdx q = .ok res := by
  by_cases he : normalize q = ""
  · exact ⟨[], by unfold search_ingredients; rw [if_pos he]⟩
  · refine ⟨db.rows.enum.filter fun p => rowHit db aliasIdx (litRE (normalize q).data) p.2, ?_⟩
    unfold search_ingredients
    rw [if_neg he, reParse_lit _ h]

/-- Witness for C4 at a concrete database and query. -/
theorem C4_witness :
    metacharFree (normalize "aaa").data = true ∧
      ∃ res, search_ingredients dbA [] "aaa" = .ok res :=
  ⟨by decide, C4_theorem dbA [] "aaa" (by decide)⟩

/-- C3 fails as stated: after `load_db`, a record whose registry cell is
absent gets the canonical-registry-key `"nan"` (pandas `astype(str)`
prints NaN as `"nan"`), not the empty string, and the non-empty query
`nan` does match such a record through the registry path. -/
theorem C3_counterexample :
    load_db (some tblN) = .ok dbN ∧ irowN ∈ dbN.rows ∧ irowN.row.cas = none ∧
      irowN.normCAS ≠ some "" ∧
      search_ingredients dbN [] "nan" = .ok [(0, irowN)] := by
  decide

/-- C3 (amended): for every record produced by building the reference
index from a table with a registry column, an absent registry cell
yields the cached canonical-registry-key `"nan"` — the string form of
the missing-value sentinel — so queries such as `nan` select the record
through the registry path. -/
theorem C3_theorem (t : RefTable) (db : RefDB) (h : load_db (some t) = .ok db)
    (x : IRow) (hx : x ∈ db.rows) (hc : x.row.cas = none)
    (hcas : db.hasCASCol = true) :
    x.normCAS = some "nan" ∧ casHit db.hasCASCol (litRE "nan".data) x = true := by
  have h' : (if t.hasIngredientCol = true then
        LoadResult.ok
          { hasCASCol := t.hasCASCol, rows := t.rows.map (buildRow t.hasCASCol) }
      else LoadResult.schemaStop) = .ok db := h
  split at h'
  · cases h'
    obtain ⟨r, _, rfl⟩ := List.mem_map.mp hx
    have hcas' : t.hasCASCol = true := hcas
    have hnc : (buildRow t.hasCASCol r).normCAS = some "nan" := by
      show (if t.hasCASCol = true then some (normalize (pyStrOfCell r.cas)) else none) =
        some "nan"
      rw [if_pos hcas', show r.cas = none from hc]
      decide
    refine ⟨hnc, ?_⟩
    show casHit t.hasCASCol (litRE "nan".data) (buildRow t.hasCASCol r) = true
    unfold casHit
    rw [hnc, Option.getD_some, hcas', Bool.true_and]
    exact (reSearch_litRE _ _).mpr (List.infix_refl _)
  · cases h'

/-- Witness for C3 at a concrete table and record. -/
theorem C3_witness :
    load_db (some tblN) = .ok dbN ∧
      (irowN.normCAS = some "nan" ∧
        casHit dbN.hasCASCol (litRE "nan".data) irowN = true) :=
  ⟨by decide, C3_theorem tblN dbN (by decide) irowN (by decide) (by decide) (by decide)⟩

/-! ## Helper lemmas: the alias path -/

theorem uniqueGo_mem (l : List String) :
    ∀ (seen : List String) (x : String), x ∈ uniqueGo seen l ↔ x ∈ l ∧ x ∉ seen := by
  induction l with
  | nil =>
    intro seen x
    simp [uniqueGo]
  | cons a t ih =>
    intro seen x
    unfold uniqueGo
    by_cases hs : seen.contains a = true
    · rw [if_pos hs, ih]
      have ha : a ∈ seen := List.elem_iff.mp hs
      constructor
      · rintro ⟨h1, h2⟩
        exact ⟨List.mem_cons_of_mem _ h1, h2⟩
      · rintro ⟨h1, h2⟩
        rcases List.mem_cons.mp h1 with rfl | h1
        · exact absurd ha h2
        · exact ⟨h1, h2⟩
    · rw [if_neg hs]
      have ha : a ∉ seen := fun hm => hs (List.elem_iff.mpr hm)
      constructor
      · intro hm
        rcases List.mem_cons.mp hm with rfl | hm
        · exact ⟨List.mem_cons_self _ _, ha⟩
        · have := (ih (a :: seen) x).mp hm
          refine ⟨List.mem_cons_of_mem _ this.1, fun hx => this.2 (List.mem_cons_of_mem _ hx)⟩
      · rintro ⟨h1, h2⟩
        rcases List.mem_cons.mp h1 with rfl | h1
        · exact List.mem_cons_self _ _
        · by_cases hxa : x = a
          · subst hxa
            exact List.mem_cons_self _ _
          · exact List.mem_cons_of_mem _ ((ih (a :: seen) x).mpr
              ⟨h1, fun hm => (List.mem_cons.mp hm).elim hxa h2⟩)

theorem mem_uniqueKeep (l : List String) (x : String) :
    x ∈ uniqueKeep l ↔ x ∈ l := by
  unfold uniqueKeep
  rw [uniqueGo_mem]
  simp

theorem mem_aliasOfficials (aliasIdx : List AliasRow) (r : RE) (s : String) :
    s ∈ aliasOfficials aliasIdx r ↔
      ∃ a ∈ aliasIdx, reSearch r a.normAlias.data = true ∧ a.normOfficial = s := by
  unfold aliasOfficials
  rw [mem_uniqueKeep, List.mem_map]
  constructor
  · rintro ⟨a, haf, rfl⟩
    have := List.mem_filter.mp haf
    exact ⟨a, this.1, this.2, rfl⟩
  · rintro ⟨a, ha, hs, rfl⟩
    exact ⟨a, List.mem_filter.mpr ⟨ha, hs⟩, rfl⟩

theorem aliasHit_nil (r : RE) (x : IRow) : aliasHit [] r x = false := rfl

theorem aliasHit_iff (aliasIdx : List AliasRow) (r : RE) (x : IRow) :
    aliasHit aliasIdx r x = true ↔
      ∃ a ∈ aliasIdx, reSearch r a.normAlias.data = true ∧
        a.normOfficial = x.normIngredient := by
  unfold aliasHit
  split
  · next hemp =>
    rw [List.isEmpty_iff.mp hemp]
    simp
  · split
    · next hoff =>
      constructor
      · intro hf
        cases hf
      · rintro ⟨a, ha, hs, he⟩
        exfalso
        have hmem : x.normIngredient ∈ aliasOfficials aliasIdx r :=
          (mem_aliasOfficials aliasIdx r _).mpr ⟨a, ha, hs, he⟩
        rw [List.isEmpty_iff.mp hoff] at hmem
        cases hmem
    · rw [show ((aliasOfficials aliasIdx r).contains x.normIngredient = true) ↔
          x.normIngredient ∈ aliasOfficials aliasIdx r from List.elem_iff]
      exact mem_aliasOfficials aliasIdx r _

/-- C5 fails as stated: with the alias entry `aaa → xyz` and the query
`aa+`, no alias entry's canonical-alias-key contains the canonical query
as a substring, yet Path C selects the record named `xyz`, because the
alias hit test is also a regex match. -/
theorem C5_counterexample :
    reParse (normalize "aa+").data = .ok r5 ∧
      aliasHit [al5] r5 irow5 = true ∧
      ([al5].filter fun a => specSubstring (normalize "aa+") a.normAlias) = [] ∧
      search_ingredients db5 [al5] "aa+" = .ok [(0, irow5)] := by
  decide

/-- C5 (amended): Path C selects a reference record exactly when its
canonical-name-key equals (exact membership, not substring) the
canonical-official-key of some alias entry whose canonical-alias-key
contains a match of the canonical query read as a regular expression —
literal substring containment when the canonical query is
metacharacter-free.  The selection condition mentions only the alias
entries themselves, so redirection is one hop and never chains. -/
theorem C5_theorem (aliasIdx : List AliasRow) (r : RE) (x : IRow) :
    (aliasHit aliasIdx r x = true ↔
      ∃ a ∈ aliasIdx, reSearch r a.normAlias.data = true ∧
        a.normOfficial = x.normIngredient) ∧
    (∀ p : List Char, metacharFree p = true →
      (aliasHit aliasIdx (litRE p) x = true ↔
        ∃ a ∈ aliasIdx, p <:+: a.normAlias.data ∧
          a.normOfficial = x.normIngredient)) := by
  refine ⟨aliasHit_iff aliasIdx r x, fun p _ => ?_⟩
  rw [aliasHit_iff]
  simp only [reSearch_litRE]

/-- Witness for C5 at a concrete alias index, query and record. -/
theorem C5_witness :
    metacharFree "acido".data = true ∧
      (aliasHit [alW] (litRE "acido".data) irowW = true ↔
        ∃ a ∈ [alW], "acido".data <:+: a.normAlias.data ∧
          a.normOfficial = irowW.normIngredient) :=
  ⟨by decide, (C5_theorem [alW] (litRE "acido".data) irowW).2 "acido".data (by decide)⟩

/-! ## Claim C9: degraded alias mode -/

theorem casHit_lit (hasCAS : Bool) (p : List Char) (x : IRow) :
    casHit hasCAS (litRE p) x =
      (hasCAS && specSubstring (String.mk p) (x.normCAS.getD "")) := by
  unfold casHit
  congr 1
  rw [Bool.eq_iff_iff, reSearch_litRE, specSubstring_iff]

/-- C9 fails as stated: with a missing alias source the index is empty
and loading never fails, but the matcher does not return every correct
direct-name match — the record named `a+b` contains the canonical query
`a+b` as a literal substring, yet the search returns the empty set,
because the query is read as the regex `a+b`. -/
theorem C9_counterexample :
    load_db (some tbl9) = .ok db9 ∧ load_alias none = [] ∧
      specSubstring (normalize "a+b") irow9.normIngredient = true ∧
      search_ingredients db9 (load_alias none) "a+b" = .ok [] := by
  decide

/-- C9 (amended): an absent alias source or one missing a required
column yields the empty, valid alias index without failing, and with an
empty alias index the matcher returns exactly the direct-name and
registry-number matches for every query whose canonical form is free of
regex metacharacters. -/
theorem C9_theorem :
    load_alias none = [] ∧
      (∀ t : AliasTable, (t.hasAliasCol && t.hasOfficialCol) = false →
        load_alias (some t) = []) ∧
      (∀ (db : RefDB) (q : String), metacharFree (normalize q).data = true →
        search_ingredients db [] q = .ok (specDirect db (normalize q))) := by
  refine ⟨rfl, ?_, ?_⟩
  · intro t ht
    simp only [load_alias]
    rw [if_neg]
    intro hcontra
    rw [ht] at hcontra
    cases hcontra
  · intro db q hq
    by_cases he : normalize q = ""
    · unfold search_ingredients specDirect
      rw [if_pos he, if_pos he]
    · unfold search_ingredients specDirect
      rw [if_neg he, if_neg he, reParse_lit _ hq]
      show Except.ok
          (db.rows.enum.filter fun p => rowHit db [] (litRE (normalize q).data) p.2) = _
      refine congrArg Except.ok (List.filter_congr ?_)
      intro p _
      unfold rowHit
      rw [aliasHit_nil, Bool.or_false, ingHit_lit, casHit_lit]

/-- Witness for C9 at a concrete degraded alias table, database and
query. -/
theorem C9_witness :
    (atM.hasAliasCol && atM.hasOfficialCol) = false ∧
      load_alias (some atM) = [] ∧
      metacharFree (normalize "aaa").data = true ∧
      search_ingredients dbA [] "aaa" = .ok (specDirect dbA (normalize "aaa")) :=
  ⟨by decide, C9_theorem.2.1 atM (by decide), by decide,
    C9_theorem.2.2 dbA "aaa" (by decide)⟩

/-! ## Helper lemmas: edges of `strip` -/

theorem dropWhile_head_not (p : Char → Bool) (l : List Char) (c : Char)
    (h : (l.dropWhile p).head? = some c) : p c = false := by
  induction l with
  | nil => cases h
  | cons a t ih =>
    rw [List.dropWhile_cons] at h
    split at h
    · exact ih h
    · next hpa =>
      cases h
      exact Bool.of_not_eq_true hpa

theorem stripEnd_last_not (p : Char → Bool) (l : List Char) (c : Char)
    (h : (stripEnd p l).getLast? = some c) : p c = false := by
  induction l with
  | nil => cases h
  | cons a t ih =>
    unfold stripEnd at h
    split at h
    · next hnil =>
      split at h
      · cases h
      · next hpa =>
        cases h
        exact Bool.of_not_eq_true hpa
    · next r hr =>
      cases hx : stripEnd p t with
      | nil => exact absurd hx hr
      | cons b rb =>
        rw [hx, List.getLast?_cons_cons] at h
        exact ih (by rw [hx]; exact h)

theorem stripEnd_head (p : Char → Bool) (l : List Char) (c : Char)
    (h : (stripEnd p l).head? = some c) : l.head? = some c := by
  cases l with
  | nil => cases h
  | cons a t =>
    unfold stripEnd at h
    split at h
    · split at h
      · cases h
      · cases h
        rfl
    · cases h
      rfl

theorem pyStrip_head_not (p : Char → Bool) (l : List Char) (c : Char)
    (h : (pyStrip p l).head? = some c) : p c = false :=
  dropWhile_head_not p l c (stripEnd_head p _ c h)

theorem pyStrip_last_not (p : Char → Bool) (l : List Char) (c : Char)
    (h : (pyStrip p l).getLast? = some c) : p c = false :=
  stripEnd_last_not p _ c h

theorem pyStrip_cons (p : Char → Bool) (c : Char) (t : List Char)
    (h : p c = false) : ∃ t2, pyStrip p (c :: t) = c :: t2 := by
  unfold pyStrip
  rw [List.dropWhile_cons, if_neg (by rw [h]; exact Bool.false_ne_true)]
  unfold stripEnd
  split
  · next hnil =>
    rw [if_neg (by rw [h]; exact Bool.false_ne_true)]
    exact ⟨[], rfl⟩
  · next r hr =>
    exact ⟨stripEnd p t, rfl⟩

/-! ## Claim C7: the quote-trimming step -/

/-- C7 fails as stated: a doubled straight quote is removed entirely
(`""a""` strips to `a`, not to `"a"`), and curly quotes are not trimmed
at this step at all. -/
theorem C7_counterexample :
    stripStep "\"\"a\"\"".data ≠ "\"a\"".data ∧
      stripStep "“a”".data ≠ "a".data := by
  decide

/-- C7 (amended): after whitespace trimming, the step removes every
leading and every trailing straight double quote, then every leading and
every trailing straight single quote (`str.strip` strips greedily, not
one character); curly quotes are not touched by this step — they survive
to the transliteration step, which turns them into straight quotes in
the output.  Consequently the result never starts or ends with a
straight single quote, a leading curly quote is preserved, and the
doubled quotes of `""a""` all disappear. -/
theorem C7_theorem :
    (∀ l : List Char, (stripStep l).head? ≠ some '\x27' ∧
        (stripStep l).getLast? ≠ some '\x27') ∧
    (∀ l : List Char, (stripStep ('“' :: l)).head? = some '“') ∧
    stripStep "\"\"a\"\"".data = "a".data := by
  refine ⟨?_, ?_, by decide⟩
  · intro l
    constructor
    · intro h
      have := pyStrip_head_not (fun c => c = '\x27') _ _ h
      simp at this
    · intro h
      have := pyStrip_last_not (fun c => c = '\x27') _ _ h
      simp at this
  · intro l
    obtain ⟨t1, h1⟩ := pyStrip_cons isPySpace '“' l (by decide)
    obtain ⟨t2, h2⟩ := pyStrip_cons (fun c => c = '"') '“' t1 (by decide)
    obtain ⟨t3, h3⟩ := pyStrip_cons (fun c => c = '\x27') '“' t2 (by decide)
    show (pyStrip _ (pyStrip _ (pyStrip _ ('“' :: l)))).head? = some '“'
    rw [h1, h2, h3]
    rfl

/-! ## Claim C10: totality and ASCII output of `normalize` -/

theorem uni_ascii (c : Char) :
    (unidecodeChar c).all (fun d => d.toNat < 128) = true := by
  unfold unidecodeChar
  split
  · next h => simpa using h
  · split
    · next p hp =>
      have hmem := List.mem_of_find?_eq_some hp
      have hall : ∀ q ∈ uniPairs, q.2.data.all (fun d => d.toNat < 128) = true := by
        decide
      exact hall p hmem
    · rfl

theorem toLower_ascii (c : Char) (h : c.toNat < 128) :
    (toLowerChar c).toNat < 128 := by
  unfold toLowerChar
  split
  · next p hp =>
    have hmem := List.mem_of_find?_eq_some hp
    have hall : ∀ q ∈ lowerPairs, q.2.toNat < 128 := by decide
    exact hall p hmem
  · exact h

/-! ## Helper lemmas: normal-form predicates -/

theorem wsOk_tail {a : Char} {l : List Char} (h : wsOk (a :: l) = true) :
    wsOk l = true := by
  unfold wsOk at h ⊢
  rw [List.all_cons, Bool.and_eq_true] at h
  exact h.2

theorem wsOk_head {a : Char} {l : List Char} (h : wsOk (a :: l) = true)
    (hws : isPySpace a = true) : a = ' ' := by
  unfold wsOk at h
  rw [List.all_cons, Bool.and_eq_true] at h
  have h1 := h.1
  rw [hws] at h1
  simpa using h1

theorem noTwoSp_tail {a : Char} {l : List Char} (h : noTwoSp (a :: l) = true) :
    noTwoSp l = true := by
  cases l with
  | nil => rfl
  | cons b tb =>
    unfold noTwoSp at h
    rw [Bool.and_eq_true] at h
    exact h.2

theorem noTwoSp_pair {a b : Char} {t : List Char} (h : noTwoSp (a :: b :: t) = true) :
    (isPySpace a && isPySpace b) = false := by
  unfold noTwoSp at h
  rw [Bool.and_eq_true] at h
  exact (Bool.not_eq_true' _).mp h.1

theorem noTwoSp_cons_of {a : Char} {l : List Char} (h : noTwoSp l = true)
    (hh : ∀ x, l.head? = some x → (isPySpace a && isPySpace x) = false) :
    noTwoSp (a :: l) = true := by
  cases l with
  | nil => rfl
  | cons b tb =>
    unfold noTwoSp
    rw [Bool.and_eq_true]
    exact ⟨(Bool.not_eq_true' _).mpr (hh b rfl), h⟩

theorem headNotWS_iff (l : List Char) :
    headNotWS l = true ↔ ∀ c, l.head? = some c → isPySpace c = false := by
  cases l with
  | nil => simp [headNotWS]
  | cons a t =>
    show (!isPySpace a) = true ↔ _
    rw [Bool.not_eq_true']
    constructor
    · intro h c hc
      cases hc
      exact h
    · intro h
      exact h a rfl

theorem lastNotWS_iff (l : List Char) :
    lastNotWS l = true ↔ ∀ c, l.getLast? = some c → isPySpace c = false := by
  unfold lastNotWS
  cases hx : l.getLast? with
  | none => simp
  | some a =>
    show (!isPySpace a) = true ↔ _
    rw [Bool.not_eq_true']
    constructor
    · intro h c hc
      cases hc
      exact h
    · intro h
      exact h a rfl

theorem occ2_tail {a b x : Char} {l : List Char} (h : occ2 a b (x :: l) = false) :
    occ2 a b l = false := by
  cases l with
  | nil => rfl
  | cons y t =>
    unfold occ2 at h
    exact (Bool.or_eq_false_iff.mp h).2

theorem occ2_pair {a b x y : Char} {t : List Char}
    (h : occ2 a b (x :: y :: t) = false) : ¬(x = a ∧ y = b) := by
  unfold occ2 at h
  have h1 := (Bool.or_eq_false_iff.mp h).1
  rintro ⟨rfl, rfl⟩
  simp at h1

theorem occ2_cons_of {a b c : Char} {l : List Char} (h : occ2 a b l = false)
    (hh : ∀ x, l.head? = some x → ¬(c = a ∧ x = b)) : occ2 a b (c :: l) = false := by
  cases l with
  | nil => rfl
  | cons y t =>
    unfold occ2
    rw [Bool.or_eq_false_iff]
    refine ⟨?_, h⟩
    have := hh y rfl
    by_cases hca : c = a
    · subst hca
      have hyb : ¬(y = b) := fun hyb => this ⟨rfl, hyb⟩
      simp [hyb]
    · simp [hca]

/-! ## Helper lemmas: fixed points of each pipeline stage -/

theorem collapse_fix (l : List Char) (hws : wsOk l = true) (h2 : noTwoSp l = true) :
    collapseGo false l = l ∧ (headNotWS l = true → collapseGo true l = l) := by
  induction l with
  | nil => exact ⟨rfl, fun _ => rfl⟩
  | cons a t ih =>
    obtain ⟨ih1, ih2⟩ := ih (wsOk_tail hws) (noTwoSp_tail h2)
    by_cases hwa : isPySpace a = true
    · have ha : a = ' ' := wsOk_head hws hwa
      subst ha
      have hht : headNotWS t = true := by
        cases t with
        | nil => rfl
        | cons u tu =>
          have hp := noTwoSp_pair h2
          rw [show isPySpace ' ' = true from by decide, Bool.true_and] at hp
          show (!isPySpace u) = true
          rw [hp]
          rfl
      constructor
      · show collapseGo false (' ' :: t) = ' ' :: t
        unfold collapseGo
        rw [if_pos hwa, if_neg (by exact Bool.false_ne_true), ih2 hht]
      · intro hh
        rw [show headNotWS (' ' :: t) = false from rfl] at hh
        cases hh
    · have hfa : isPySpace a = false := Bool.of_not_eq_true hwa
      constructor
      · show collapseGo false (a :: t) = a :: t
        unfold collapseGo
        rw [if_neg hwa, ih1]
      · intro _
        show collapseGo true (a :: t) = a :: t
        unfold collapseGo
        rw [if_neg hwa, ih1]

theorem dropWhile_id (p : Char → Bool) (l : List Char)
    (h : ∀ c, l.head? = some c → p c = false) : l.dropWhile p = l := by
  cases l with
  | nil => rfl
  | cons a t =>
    rw [List.dropWhile_cons, if_neg (by rw [h a rfl]; exact Bool.false_ne_true)]

theorem stripEnd_id (p : Char → Bool) (l : List Char)
    (h : ∀ c, l.getLast? = some c → p c = false) : stripEnd p l = l := by
  induction l with
  | nil => rfl
  | cons a t ih =>
    cases t with
    | nil =>
      show (match stripEnd p [] with
        | [] => if p a then [] else [a]
        | r => a :: r) = [a]
      show (if p a then ([] : List Char) else [a]) = [a]
      rw [if_neg (by rw [h a rfl]; exact Bool.false_ne_true)]
    | cons b tb =>
      have ht : stripEnd p (b :: tb) = b :: tb := by
        apply ih
        intro c hc
        exact h c (by rw [List.getLast?_cons_cons]; exact hc)
      unfold stripEnd
      rw [ht]

theorem pyStrip_id (p : Char → Bool) (l : List Char)
    (hh : ∀ c, l.head? = some c → p c = false)
    (hl : ∀ c, l.getLast? = some c → p c = false) : pyStrip p l = l := by
  unfold pyStrip
  rw [dropWhile_id p l hh, stripEnd_id p l hl]

theorem head?_mem {l : List Char} {c : Char} (h : l.head? = some c) : c ∈ l := by
  cases l with
  | nil => cases h
  | cons a t =>
    cases h
    exact List.mem_cons_self _ _

theorem noQuote_strip_id (q : Char) (l : List Char)
    (h : ∀ c ∈ l, c ≠ q) : pyStrip (fun c => c = q) l = l := by
  apply pyStrip_id
  · intro c hc
    exact decide_eq_false (h c (head?_mem hc))
  · intro c hc
    exact decide_eq_false (h c (List.mem_of_mem_getLast? (by rw [hc]; rfl)))

theorem noQuote_chars {l : List Char} (h : noQuote l = true) :
    ∀ c ∈ l, c ≠ '"' ∧ c ≠ '\x27' := by
  intro c hc
  have := List.all_eq_true.mp h c hc
  rw [Bool.and_eq_true] at this
  exact ⟨of_decide_eq_true this.1, of_decide_eq_true this.2⟩

theorem stripStep_fix (l : List Char) (h3 : headNotWS l = true)
    (h4 : lastNotWS l = true) (h5 : noQuote l = true) : stripStep l = l := by
  unfold stripStep
  rw [pyStrip_id isPySpace l ((headNotWS_iff l).mp h3) ((lastNotWS_iff l).mp h4)]
  rw [noQuote_strip_id '"' l fun c hc => (noQuote_chars h5 c hc).1]
  rw [noQuote_strip_id '\x27' l fun c hc => (noQuote_chars h5 c hc).2]

theorem repA_id (l : List Char) (h : occ2 ' ' '/' l = false) : repA l = l := by
  induction l with
  | nil => rfl
  | cons a t ih =>
    cases t with
    | nil => rfl
    | cons b tb =>
      cases tb with
      | nil => rfl
      | cons c tc =>
        have hcond : ¬(a = ' ' ∧ b = '/' ∧ c = ' ') := by
          rintro ⟨rfl, rfl, rfl⟩
          exact occ2_pair h ⟨rfl, rfl⟩
        unfold repA
        rw [if_neg hcond, ih (occ2_tail h)]

theorem repB_id (l : List Char) (h : occ2 ' ' '/' l = false) : repB l = l := by
  induction l with
  | nil => rfl
  | cons a t ih =>
    cases t with
    | nil => rfl
    | cons b tb =>
      have hcond : ¬(a = ' ' ∧ b = '/') := occ2_pair h
      unfold repB
      rw [if_neg hcond, ih (occ2_tail h)]

theorem repC_id (l : List Char) (h : occ2 '/' ' ' l = false) : repC l = l := by
  induction l with
  | nil => rfl
  | cons a t ih =>
    cases t with
    | nil => rfl
    | cons b tb =>
      have hcond : ¬(a = '/' ∧ b = ' ') := occ2_pair h
      unfold repC
      rw [if_neg hcond, ih (occ2_tail h)]

theorem map_id_of (f : Char → Char) :
    ∀ l : List Char, (∀ c ∈ l, f c = c) → l.map f = l
  | [], _ => rfl
  | c :: t, h => by
    rw [List.map_cons, h c (List.mem_cons_self _ _),
      map_id_of f t fun d hd => h d (List.mem_cons_of_mem _ hd)]

theorem ascii_chars {l : List Char} (h : asciiOnly l = true) :
    ∀ c ∈ l, c.toNat < 128 := by
  intro c hc
  exact of_decide_eq_true (List.all_eq_true.mp h c hc)

theorem repDash_fix (l : List Char) (h : asciiOnly l = true) : repDash l = l := by
  apply map_id_of
  intro c hc
  have hca := ascii_chars h c hc
  rw [if_neg]
  rintro (rfl | rfl | rfl) <;> exact absurd hca (by decide)

theorem flatMap_uni_id : ∀ l : List Char, asciiOnly l = true →
    l.flatMap unidecodeChar = l
  | [], _ => rfl
  | c :: t, h => by
    rw [List.flatMap_cons]
    have hc : c.toNat < 128 := ascii_chars h c (List.mem_cons_self _ _)
    rw [show unidecodeChar c = [c] from by unfold unidecodeChar; rw [if_pos hc]]
    rw [flatMap_uni_id t (by
      unfold asciiOnly at h ⊢
      rw [List.all_cons, Bool.and_eq_true] at h
      exact h.2)]
    rfl

theorem lowFix_chars {l : List Char} (h : lowFix l = true) :
    ∀ c ∈ l, toLowerChar c = c := by
  intro c hc
  exact of_decide_eq_true (List.all_eq_true.mp h c hc)

/-- Fixed-point lemma: a list satisfying all the normal-form predicates
is left unchanged by the whole normalization pipeline. -/
theorem normCore_fix (l : List Char)
    (h1 : wsOk l = true) (h2 : noTwoSp l = true) (h3 : headNotWS l = true)
    (h4 : lastNotWS l = true) (h5 : noQuote l = true) (h6 : asciiOnly l = true)
    (h7 : occ2 ' ' '/' l = false) (h8 : occ2 '/' ' ' l = false)
    (h9 : lowFix l = true) : normCore l = l := by
  unfold normCore
  rw [show pyCollapseWS l = l from (collapse_fix l h1 h2).1]
  rw [stripStep_fix l h3 h4 h5]
  rw [repA_id l h7, repB_id l h7, repC_id l h8, repDash_fix l h6]
  rw [flatMap_uni_id l h6]
  exact map_id_of _ l (lowFix_chars h9)

/-! ## Helper lemmas: the collapse stage establishes whitespace normality -/

theorem collapse_mem (b : Bool) (l : List Char) (c : Char) (hc : c ∈ collapseGo b l) :
    c = ' ' ∨ (c ∈ l ∧ isPySpace c = false) := by
  induction l generalizing b with
  | nil => cases hc
  | cons a t ih =>
    unfold collapseGo at hc
    split at hc
    · split at hc
      · rcases ih true hc with h | ⟨h1, h2⟩
        · exact Or.inl h
        · exact Or.inr ⟨List.mem_cons_of_mem _ h1, h2⟩
      · rcases List.mem_cons.mp hc with rfl | h
        · exact Or.inl rfl
        · rcases ih true h with h | ⟨h1, h2⟩
          · exact Or.inl h
          · exact Or.inr ⟨List.mem_cons_of_mem _ h1, h2⟩
    · next hna =>
      rcases List.mem_cons.mp hc with rfl | h
      · exact Or.inr ⟨List.mem_cons_self _ _, Bool.of_not_eq_true hna⟩
      · rcases ih false h with h | ⟨h1, h2⟩
        · exact Or.inl h
        · exact Or.inr ⟨List.mem_cons_of_mem _ h1, h2⟩

theorem collapse_wsOk (b : Bool) (l : List Char) : wsOk (collapseGo b l) = true := by
  unfold wsOk
  rw [List.all_eq_true]
  intro c hc
  rcases collapse_mem b l c hc with rfl | ⟨_, h2⟩
  · decide
  · rw [h2]
    rfl

theorem collapse_headTrue (l : List Char) : headNotWS (collapseGo true l) = true := by
  induction l with
  | nil => rfl
  | cons a t ih =>
    unfold collapseGo
    split
    · exact ih
    · next hna =>
      show (!isPySpace a) = true
      rw [Bool.of_not_eq_true hna]
      rfl

theorem collapse_noTwo (b : Bool) (l : List Char) : noTwoSp (collapseGo b l) = true := by
  induction l generalizing b with
  | nil => rfl
  | cons a t ih =>
    unfold collapseGo
    split
    · cases b
      · rw [if_neg (by exact Bool.false_ne_true)]
        apply noTwoSp_cons_of (ih true)
        intro x hx
        have hxf : isPySpace x = false :=
          ((headNotWS_iff _).mp (collapse_headTrue t)) x hx
        rw [hxf, Bool.and_false]
      · rw [if_pos rfl]
        exact ih true
    · next hna =>
      apply noTwoSp_cons_of (ih false)
      intro x _
      rw [Bool.of_not_eq_true hna, Bool.false_and]

/-! ## Helper lemmas: the strip stage and affix preservation -/

theorem stripEnd_isPre (p : Char → Bool) : ∀ l : List Char, stripEnd p l <+: l
  | [] => List.nil_prefix
  | a :: t => by
    cases hx : stripEnd p t with
    | nil =>
      have hval : stripEnd p (a :: t) = if p a then [] else [a] := by
        unfold stripEnd
        rw [hx]
      rw [hval]
      by_cases hpa : p a = true
      · rw [if_pos hpa]
        exact List.nil_prefix
      · rw [if_neg hpa]
        exact ⟨t, rfl⟩
    | cons c rc =>
      have hval : stripEnd p (a :: t) = a :: c :: rc := by
        unfold stripEnd
        rw [hx]
      rw [hval]
      have hpre := stripEnd_isPre p t
      rw [hx] at hpre
      obtain ⟨post, hpost⟩ := hpre
      exact ⟨post, by rw [List.cons_append, hpost]⟩

theorem pyStrip_sub (p : Char → Bool) (l : List Char) :
    ∀ c ∈ pyStrip p l, c ∈ l := by
  intro c hc
  have h1 := (stripEnd_isPre p (l.dropWhile p)).subset hc
  exact (List.dropWhile_suffix p).subset h1

theorem noTwoSp_append_right (a : List Char) {b : List Char}
    (h : noTwoSp (a ++ b) = true) : noTwoSp b = true := by
  induction a with
  | nil => exact h
  | cons x xs ih => exact ih (noTwoSp_tail h)

theorem noTwoSp_of_pre : ∀ (a post : List Char), noTwoSp (a ++ post) = true →
    noTwoSp a = true
  | [], _, _ => rfl
  | [_], _, _ => rfl
  | x :: y :: t, post, h => by
    unfold noTwoSp
    rw [Bool.and_eq_true]
    constructor
    · rw [Bool.not_eq_true']
      exact noTwoSp_pair (t := t ++ post) h
    · exact noTwoSp_of_pre (y :: t) post (noTwoSp_tail h)

theorem pyStrip_noTwo (p : Char → Bool) (l : List Char) (h : noTwoSp l = true) :
    noTwoSp (pyStrip p l) = true := by
  have h1 : noTwoSp (l.dropWhile p) = true := by
    obtain ⟨pre, hpre⟩ := List.dropWhile_suffix (l := l) p
    exact noTwoSp_append_right pre (by rw [hpre]; exact h)
  obtain ⟨post, hpost⟩ := stripEnd_isPre p (l.dropWhile p)
  unfold pyStrip
  exact noTwoSp_of_pre _ post (by rw [hpost]; exact h1)

theorem all_of_sub (f : Char → Bool) (l l' : List Char)
    (hsub : ∀ c ∈ l', c ∈ l) (h : l.all f = true) : l'.all f = true := by
  rw [List.all_eq_true] at h ⊢
  exact fun c hc => h c (hsub c hc)

/-- With no quote characters present, the two quote strips do nothing,
so the strip stage is just the whitespace strip. -/
theorem stripStep_eq_ws (l : List Char) (hq : noQuote l = true) :
    stripStep l = pyStrip isPySpace l := by
  unfold stripStep
  have hq1 : ∀ c ∈ pyStrip isPySpace l, c ≠ '"' ∧ c ≠ '\x27' := fun c hc =>
    noQuote_chars hq c (pyStrip_sub isPySpace l c hc)
  rw [noQuote_strip_id '"' _ fun c hc => (hq1 c hc).1]
  rw [noQuote_strip_id '\x27' _ fun c hc => (hq1 c hc).2]

/-! ## Helper lemmas: the slash scanners -/

theorem getLast?_cons_ne {a : Char} {t : List Char} (h : t ≠ []) :
    (a :: t).getLast? = t.getLast? := by
  cases t with
  | nil => exact absurd rfl h
  | cons b tb => exact List.getLast?_cons_cons

theorem repB_head (b : Char) (t : List Char) :
    (repB (b :: t)).head? = some b ∨
      ((repB (b :: t)).head? = some '/' ∧ b = ' ') := by
  cases t with
  | nil => exact Or.inl rfl
  | cons c tc =>
    by_cases hc : b = ' ' ∧ c = '/'
    · refine Or.inr ⟨?_, hc.1⟩
      rw [show repB (b :: c :: tc) = '/' :: repB tc from by simp only [repB]; rw [if_pos hc]]
      rfl
    · left
      rw [show repB (b :: c :: tc) = b :: repB (c :: tc) from by
        simp only [repB]; rw [if_neg hc]]
      rfl

theorem repB_ne_nil : ∀ l : List Char, l ≠ [] → repB l ≠ []
  | [], h => absurd rfl h
  | [a], _ => by
    rw [show repB [a] = [a] from rfl]
    exact List.cons_ne_nil _ _
  | a :: b :: t, _ => by
    by_cases hc : a = ' ' ∧ b = '/'
    · rw [show repB (a :: b :: t) = '/' :: repB t from by simp only [repB]; rw [if_pos hc]]
      exact List.cons_ne_nil _ _
    · rw [show repB (a :: b :: t) = a :: repB (b :: t) from by
        simp only [repB]; rw [if_neg hc]]
      exact List.cons_ne_nil _ _

theorem repB_last : ∀ l : List Char,
    (repB l).getLast? = l.getLast? ∨ (repB l).getLast? = some '/'
  | [] => Or.inl rfl
  | [_] => Or.inl rfl
  | a :: b :: t => by
    by_cases hc : a = ' ' ∧ b = '/'
    · rw [show repB (a :: b :: t) = '/' :: repB t from by simp only [repB]; rw [if_pos hc]]
      cases t with
      | nil => exact Or.inr rfl
      | cons c tc =>
        rw [getLast?_cons_ne (repB_ne_nil (c :: tc) (List.cons_ne_nil _ _))]
        rcases repB_last (c :: tc) with h | h
        · left
          rw [h, List.getLast?_cons_cons, List.getLast?_cons_cons]
        · exact Or.inr h
    · rw [show repB (a :: b :: t) = a :: repB (b :: t) from by
        simp only [repB]; rw [if_neg hc]]
      rw [getLast?_cons_ne (repB_ne_nil (b :: t) (List.cons_ne_nil _ _))]
      rcases repB_last (b :: t) with h | h
      · left
        rw [h, List.getLast?_cons_cons]
      · exact Or.inr h

theorem repB_mem : ∀ (l : List Char) (c : Char), c ∈ repB l → c = '/' ∨ c ∈ l
  | [], _, h => Or.inr h
  | [_], _, h => Or.inr h
  | a :: b :: t, c, h => by
    by_cases hc : a = ' ' ∧ b = '/'
    · rw [show repB (a :: b :: t) = '/' :: repB t from by
        simp only [repB]; rw [if_pos hc]] at h
      rcases List.mem_cons.mp h with rfl | h
      · exact Or.inl rfl
      · rcases repB_mem t c h with h | h
        · exact Or.inl h
        · exact Or.inr (List.mem_cons_of_mem _ (List.mem_cons_of_mem _ h))
    · rw [show repB (a :: b :: t) = a :: repB (b :: t) from by
        simp only [repB]; rw [if_neg hc]] at h
      rcases List.mem_cons.mp h with rfl | h
      · exact Or.inr (List.mem_cons_self _ _)
      · rcases repB_mem (b :: t) c h with h | h
        · exact Or.inl h
        · exact Or.inr (List.mem_cons_of_mem _ h)

theorem repB_noTwo : ∀ l : List Char, noTwoSp l = true → noTwoSp (repB l) = true
  | [], _ => rfl
  | [_], _ => rfl
  | a :: b :: t, h => by
    by_cases hc : a = ' ' ∧ b = '/'
    · rw [show repB (a :: b :: t) = '/' :: repB t from by simp only [repB]; rw [if_pos hc]]
      apply noTwoSp_cons_of (repB_noTwo t (noTwoSp_tail (noTwoSp_tail h)))
      intro x _
      rw [show isPySpace '/' = false from by decide, Bool.false_and]
    · rw [show repB (a :: b :: t) = a :: repB (b :: t) from by
        simp only [repB]; rw [if_neg hc]]
      apply noTwoSp_cons_of (repB_noTwo (b :: t) (noTwoSp_tail h))
      intro x hx
      rcases repB_head b t with hh | ⟨hh, _⟩
      · rw [hh] at hx
        cases hx
        exact noTwoSp_pair h
      · rw [hh] at hx
        cases hx
        rw [show isPySpace '/' = false from by decide, Bool.and_false]

theorem repB_occ : ∀ l : List Char, noTwoSp l = true → occ2 ' ' '/' (repB l) = false
  | [], _ => rfl
  | [_], _ => rfl
  | a :: b :: t, h => by
    by_cases hc : a = ' ' ∧ b = '/'
    · rw [show repB (a :: b :: t) = '/' :: repB t from by simp only [repB]; rw [if_pos hc]]
      apply occ2_cons_of (repB_occ t (noTwoSp_tail (noTwoSp_tail h)))
      intro x _
      rintro ⟨h1, _⟩
      exact absurd h1 (by decide)
    · rw [show repB (a :: b :: t) = a :: repB (b :: t) from by
        simp only [repB]; rw [if_neg hc]]
      apply occ2_cons_of (repB_occ (b :: t) (noTwoSp_tail h))
      intro x hx
      rcases repB_head b t with hh | ⟨hh, hb⟩
      · rw [hh] at hx
        cases hx
        exact hc
      · rw [hh] at hx
        cases hx
        subst hb
        rintro ⟨rfl, _⟩
        have hp := noTwoSp_pair h
        rw [show isPySpace ' ' = true from by decide] at hp
        exact absurd hp (by decide)

theorem repC_head (b : Char) (t : List Char) :
    (repC (b :: t)).head? = some b ∨
      ((repC (b :: t)).head? = some '/' ∧ b = '/') := by
  cases t with
  | nil => exact Or.inl rfl
  | cons c tc =>
    by_cases hc : b = '/' ∧ c = ' '
    · refine Or.inr ⟨?_, hc.1⟩
      rw [show repC (b :: c :: tc) = '/' :: repC tc from by simp only [repC]; rw [if_pos hc]]
      rfl
    · left
      rw [show repC (b :: c :: tc) = b :: repC (c :: tc) from by
        simp only [repC]; rw [if_neg hc]]
      rfl

theorem repC_ne_nil : ∀ l : List Char, l ≠ [] → repC l ≠ []
  | [], h => absurd rfl h
  | [a], _ => by
    rw [show repC [a] = [a] from rfl]
    exact List.cons_ne_nil _ _
  | a :: b :: t, _ => by
    by_cases hc : a = '/' ∧ b = ' '
    · rw [show repC (a :: b :: t) = '/' :: repC t from by simp only [repC]; rw [if_pos hc]]
      exact List.cons_ne_nil _ _
    · rw [show repC (a :: b :: t) = a :: repC (b :: t) from by
        simp only [repC]; rw [if_neg hc]]
      exact List.cons_ne_nil _ _

theorem repC_last : ∀ l : List Char,
    (repC l).getLast? = l.getLast? ∨ (repC l).getLast? = some '/'
  | [] => Or.inl rfl
  | [_] => Or.inl rfl
  | a :: b :: t => by
    by_cases hc : a = '/' ∧ b = ' '
    · rw [show repC (a :: b :: t) = '/' :: repC t from by simp only [repC]; rw [if_pos hc]]
      cases t with
      | nil => exact Or.inr rfl
      | cons c tc =>
        rw [getLast?_cons_ne (repC_ne_nil (c :: tc) (List.cons_ne_nil _ _))]
        rcases repC_last (c :: tc) with h | h
        · left
          rw [h, List.getLast?_cons_cons, List.getLast?_cons_cons]
        · exact Or.inr h
    · rw [show repC (a :: b :: t) = a :: repC (b :: t) from by
        simp only [repC]; rw [if_neg hc]]
      rw [getLast?_cons_ne (repC_ne_nil (b :: t) (List.cons_ne_nil _ _))]
      rcases repC_last (b :: t) with h | h
      · left
        rw [h, List.getLast?_cons_cons]
      · exact Or.inr h

theorem repC_mem : ∀ (l : List Char) (c : Char), c ∈ repC l → c = '/' ∨ c ∈ l
  | [], _, h => Or.inr h
  | [_], _, h => Or.inr h
  | a :: b :: t, c, h => by
    by_cases hc : a = '/' ∧ b = ' '
    · rw [show repC (a :: b :: t) = '/' :: repC t from by
        simp only [repC]; rw [if_pos hc]] at h
      rcases List.mem_cons.mp h with rfl | h
      · exact Or.inl rfl
      · rcases repC_mem t c h with h | h
        · exact Or.inl h
        · exact Or.inr (List.mem_cons_of_mem _ (List.mem_cons_of_mem _ h))
    · rw [show repC (a :: b :: t) = a :: repC (b :: t) from by
        simp only [repC]; rw [if_neg hc]] at h
      rcases List.mem_cons.mp h with rfl | h
      · exact Or.inr (List.mem_cons_self _ _)
      · rcases repC_mem (b :: t) c h with h | h
        · exact Or.inl h
        · exact Or.inr (List.mem_cons_of_mem _ h)

theorem repC_noTwo : ∀ l : List Char, noTwoSp l = true → noTwoSp (repC l) = true
  | [], _ => rfl
  | [_], _ => rfl
  | a :: b :: t, h => by
    by_cases hc : a = '/' ∧ b = ' '
    · rw [show repC (a :: b :: t) = '/' :: repC t from by simp only [repC]; rw [if_pos hc]]
      apply noTwoSp_cons_of (repC_noTwo t (noTwoSp_tail (noTwoSp_tail h)))
      intro x _
      rw [show isPySpace '/' = false from by decide, Bool.false_and]
    · rw [show repC (a :: b :: t) = a :: repC (b :: t) from by
        simp only [repC]; rw [if_neg hc]]
      apply noTwoSp_cons_of (repC_noTwo (b :: t) (noTwoSp_tail h))
      intro x hx
      rcases repC_head b t with hh | ⟨hh, _⟩
      · rw [hh] at hx
        cases hx
        exact noTwoSp_pair h
      · rw [hh] at hx
        cases hx
        rw [show isPySpace '/' = false from by decide, Bool.and_false]

theorem repC_occ1 : ∀ l : List Char, noTwoSp l = true →
    occ2 ' ' '/' l = false → occ2 ' ' '/' (repC l) = false
  | [], _, _ => rfl
  | [_], _, _ => rfl
  | a :: b :: t, hn, h => by
    by_cases hc : a = '/' ∧ b = ' '
    · rw [show repC (a :: b :: t) = '/' :: repC t from by simp only [repC]; rw [if_pos hc]]
      apply occ2_cons_of (repC_occ1 t (noTwoSp_tail (noTwoSp_tail hn))
        (occ2_tail (occ2_tail h)))
      intro x _
      rintro ⟨h1, _⟩
      exact absurd h1 (by decide)
    · rw [show repC (a :: b :: t) = a :: repC (b :: t) from by
        simp only [repC]; rw [if_neg hc]]
      apply occ2_cons_of (repC_occ1 (b :: t) (noTwoSp_tail hn) (occ2_tail h))
      intro x hx
      rcases repC_head b t with hh | ⟨hh, hb⟩
      · rw [hh] at hx
        cases hx
        exact occ2_pair h
      · rw [hh] at hx
        cases hx
        rintro ⟨rfl, _⟩
        exact occ2_pair h ⟨rfl, hb⟩

theorem repC_occ2 : ∀ l : List Char, noTwoSp l = true →
    occ2 '/' ' ' (repC l) = false
  | [], _ => rfl
  | [_], _ => rfl
  | a :: b :: t, hn => by
    by_cases hc : a = '/' ∧ b = ' '
    · rw [show repC (a :: b :: t) = '/' :: repC t from by simp only [repC]; rw [if_pos hc]]
      apply occ2_cons_of (repC_occ2 t (noTwoSp_tail (noTwoSp_tail hn)))
      intro x hx
      rintro ⟨_, h2⟩
      cases t with
      | nil =>
        rw [show repC [] = [] from rfl] at hx
        cases hx
      | cons c tc =>
        rcases repC_head c tc with hh | ⟨hh, _⟩
        · rw [hh] at hx
          cases hx
          have hp := noTwoSp_pair (noTwoSp_tail hn)
          rw [hc.2, show isPySpace ' ' = true from by decide, Bool.true_and] at hp
          rw [h2] at hp
          exact absurd hp (by decide)
        · rw [hh] at hx
          cases hx
          exact absurd h2 (by decide)
    · rw [show repC (a :: b :: t) = a :: repC (b :: t) from by
        simp only [repC]; rw [if_neg hc]]
      apply occ2_cons_of (repC_occ2 (b :: t) (noTwoSp_tail hn))
      intro x hx
      rcases repC_head b t with hh | ⟨hh, _⟩
      · rw [hh] at hx
        cases hx
        exact hc
      · rw [hh] at hx
        cases hx
        rintro ⟨_, h2⟩
        exact absurd h2 (by decide)

theorem repA_head (b : Char) (t : List Char) :
    (repA (b :: t)).head? = some b ∨
      ((repA (b :: t)).head? = some '/' ∧ b = ' ') := by
  cases t with
  | nil => exact Or.inl rfl
  | cons c tc =>
    cases tc with
    | nil => exact Or.inl rfl
    | cons d td =>
      by_cases hc : b = ' ' ∧ c = '/' ∧ d = ' '
      · refine Or.inr ⟨?_, hc.1⟩
        rw [show repA (b :: c :: d :: td) = '/' :: repA td from by
          simp only [repA]; rw [if_pos hc]]
        rfl
      · left
        rw [show repA (b :: c :: d :: td) = b :: repA (c :: d :: td) from by
          simp only [repA]; rw [if_neg hc]]
        rfl

theorem repA_ne_nil : ∀ l : List Char, l ≠ [] → repA l ≠ []
  | [], h => absurd rfl h
  | [a], _ => by
    rw [show repA [a] = [a] from rfl]
    exact List.cons_ne_nil _ _
  | [a, b], _ => by
    rw [show repA [a, b] = [a, b] from rfl]
    exact List.cons_ne_nil _ _
  | a :: b :: c :: t, _ => by
    by_cases hc : a = ' ' ∧ b = '/' ∧ c = ' '
    · rw [show repA (a :: b :: c :: t) = '/' :: repA t from by
        simp only [repA]; rw [if_pos hc]]
      exact List.cons_ne_nil _ _
    · rw [show repA (a :: b :: c :: t) = a :: repA (b :: c :: t) from by
        simp only [repA]; rw [if_neg hc]]
      exact List.cons_ne_nil _ _

theorem repA_last : ∀ l : List Char,
    (repA l).getLast? = l.getLast? ∨ (repA l).getLast? = some '/'
  | [] => Or.inl rfl
  | [_] => Or.inl rfl
  | [_, _] => Or.inl rfl
  | a :: b :: c :: t => by
    by_cases hc : a = ' ' ∧ b = '/' ∧ c = ' '
    · rw [show repA (a :: b :: c :: t) = '/' :: repA t from by
        simp only [repA]; rw [if_pos hc]]
      cases t with
      | nil => exact Or.inr rfl
      | cons d td =>
        rw [getLast?_cons_ne (repA_ne_nil (d :: td) (List.cons_ne_nil _ _))]
        rcases repA_last (d :: td) with h | h
        · left
          rw [h]
          simp only [List.getLast?_cons_cons]
        · exact Or.inr h
    · rw [show repA (a :: b :: c :: t) = a :: repA (b :: c :: t) from by
        simp only [repA]; rw [if_neg hc]]
      rw [getLast?_cons_ne (repA_ne_nil (b :: c :: t) (List.cons_ne_nil _ _))]
      rcases repA_last (b :: c :: t) with h | h
      · left
        rw [h]
        simp only [List.getLast?_cons_cons]
      · exact Or.inr h

theorem repA_mem : ∀ (l : List Char) (c : Char), c ∈ repA l → c = '/' ∨ c ∈ l
  | [], _, h => Or.inr h
  | [_], _, h => Or.inr h
  | [_, _], _, h => Or.inr h
  | a :: b :: c :: t, x, h => by
    by_cases hc : a = ' ' ∧ b = '/' ∧ c = ' '
    · rw [show repA (a :: b :: c :: t) = '/' :: repA t from by
        simp only [repA]; rw [if_pos hc]] at h
      rcases List.mem_cons.mp h with rfl | h
      · exact Or.inl rfl
      · rcases repA_mem t x h with h | h
        · exact Or.inl h
        · exact Or.inr (List.mem_cons_of_mem _ (List.mem_cons_of_mem _
            (List.mem_cons_of_mem _ h)))
    · rw [show repA (a :: b :: c :: t) = a :: repA (b :: c :: t) from by
        simp only [repA]; rw [if_neg hc]] at h
      rcases List.mem_cons.mp h with rfl | h
      · exact Or.inr (List.mem_cons_self _ _)
      · rcases repA_mem (b :: c :: t) x h with h | h
        · exact Or.inl h
        · exact Or.inr (List.mem_cons_of_mem _ h)

theorem repA_noTwo : ∀ l : List Char, noTwoSp l = true → noTwoSp (repA l) = true
  | [], _ => rfl
  | [_], _ => rfl
  | [a, b], h => h
  | a :: b :: c :: t, h => by
    by_cases hc : a = ' ' ∧ b = '/' ∧ c = ' '
    · rw [show repA (a :: b :: c :: t) = '/' :: repA t from by
        simp only [repA]; rw [if_pos hc]]
      apply noTwoSp_cons_of
        (repA_noTwo t (noTwoSp_tail (noTwoSp_tail (noTwoSp_tail h))))
      intro x _
      rw [show isPySpace '/' = false from by decide, Bool.false_and]
    · rw [show repA (a :: b :: c :: t) = a :: repA (b :: c :: t) from by
        simp only [repA]; rw [if_neg hc]]
      apply noTwoSp_cons_of (repA_noTwo (b :: c :: t) (noTwoSp_tail h))
      intro x hx
      rcases repA_head b (c :: t) with hh | ⟨hh, _⟩
      · rw [hh] at hx
        cases hx
        exact noTwoSp_pair h
      · rw [hh] at hx
        cases hx
        rw [show isPySpace '/' = false from by decide, Bool.and_false]

theorem repA_headNot (l : List Char) (h : headNotWS l = true) :
    headNotWS (repA l) = true := by
  cases l with
  | nil => rfl
  | cons b t =>
    apply (headNotWS_iff _).mpr
    intro c hc
    rcases repA_head b t with hh | ⟨hh, _⟩
    · rw [hh] at hc
      cases hc
      exact (headNotWS_iff _).mp h b rfl
    · rw [hh] at hc
      cases hc
      decide

theorem repB_headNot (l : List Char) (h : headNotWS l = true) :
    headNotWS (repB l) = true := by
  cases l with
  | nil => rfl
  | cons b t =>
    apply (headNotWS_iff _).mpr
    intro c hc
    rcases repB_head b t with hh | ⟨hh, _⟩
    · rw [hh] at hc
      cases hc
      exact (headNotWS_iff _).mp h b rfl
    · rw [hh] at hc
      cases hc
      decide

theorem repC_headNot (l : List Char) (h : headNotWS l = true) :
    headNotWS (repC l) = true := by
  cases l with
  | nil => rfl
  | cons b t =>
    apply (headNotWS_iff _).mpr
    intro c hc
    rcases repC_head b t with hh | ⟨hh, _⟩
    · rw [hh] at hc
      cases hc
      exact (headNotWS_iff _).mp h b rfl
    · rw [hh] at hc
      cases hc
      decide

theorem repA_lastNot (l : List Char) (h : lastNotWS l = true) :
    lastNotWS (repA l) = true := by
  apply (lastNotWS_iff _).mpr
  intro c hc
  rcases repA_last l with hh | hh
  · rw [hh] at hc
    exact (lastNotWS_iff _).mp h c hc
  · rw [hh] at hc
    cases hc
    decide

theorem repB_lastNot (l : List Char) (h : lastNotWS l = true) :
    lastNotWS (repB l) = true := by
  apply (lastNotWS_iff _).mpr
  intro c hc
  rcases repB_last l with hh | hh
  · rw [hh] at hc
    exact (lastNotWS_iff _).mp h c hc
  · rw [hh] at hc
    cases hc
    decide

theorem repC_lastNot (l : List Char) (h : lastNotWS l = true) :
    lastNotWS (repC l) = true := by
  apply (lastNotWS_iff _).mpr
  intro c hc
  rcases repC_last l with hh | hh
  · rw [hh] at hc
    exact (lastNotWS_iff _).mp h c hc
  · rw [hh] at hc
    cases hc
    decide

theorem all_of_slashsub (f : Char → Bool) (hf : f '/' = true) (l l' : List Char)
    (hsub : ∀ c ∈ l', c = '/' ∨ c ∈ l) (h : l.all f = true) : l'.all f = true := by
  rw [List.all_eq_true] at h ⊢
  intro c hc
  rcases hsub c hc with rfl | hm
  · exact hf
  · exact h c hm

/-! ## Helper lemmas: lower-casing preserves the normal form -/

theorem tlc_find_eq {c : Char} {p : Char × Char}
    (hp : lowerPairs.find? (fun q => q.1 = c) = some p) :
    p.1 = c ∧ p ∈ lowerPairs := by
  constructor
  · have h0 := List.find?_some hp
    simpa using h0
  · exact List.mem_of_find?_eq_some hp

theorem tlc_ws (c : Char) : isPySpace (toLowerChar c) = isPySpace c := by
  unfold toLowerChar
  split
  · next p hp =>
    obtain ⟨h1, h2⟩ := tlc_find_eq hp
    have hall : ∀ q ∈ lowerPairs, isPySpace q.1 = false ∧ isPySpace q.2 = false := by
      decide
    rw [(hall p h2).2, ← h1, (hall p h2).1]
  · rfl

theorem tlc_eq_special (d : Char)
    (hk : ∀ q ∈ lowerPairs, q.1 ≠ d) (hv : ∀ q ∈ lowerPairs, q.2 ≠ d)
    (c : Char) : (toLowerChar c = d) ↔ (c = d) := by
  unfold toLowerChar
  split
  · next p hp =>
    obtain ⟨h1, h2⟩ := tlc_find_eq hp
    constructor
    · intro he
      exact absurd he (hv p h2)
    · intro he
      rw [he] at h1
      exact absurd h1 (hk p h2)
  · exact Iff.rfl

theorem tlc_idem (c : Char) : toLowerChar (toLowerChar c) = toLowerChar c := by
  cases hx : lowerPairs.find? (fun q => q.1 = c) with
  | none =>
    have h1 : toLowerChar c = c := by
      unfold toLowerChar
      rw [hx]
    rw [h1]
    exact h1
  | some p =>
    have h1 : toLowerChar c = p.2 := by
      unfold toLowerChar
      rw [hx]
    rw [h1]
    obtain ⟨_, h2⟩ := tlc_find_eq hx
    have hnone : ∀ q ∈ lowerPairs,
        lowerPairs.find? (fun r => r.1 = q.2) = none := by decide
    unfold toLowerChar
    rw [hnone p h2]

theorem wsOk_map (l : List Char) (h : wsOk l = true) :
    wsOk (l.map toLowerChar) = true := by
  unfold wsOk at h ⊢
  rw [List.all_eq_true] at h ⊢
  intro d hd
  rw [List.mem_map] at hd
  obtain ⟨c, hc, rfl⟩ := hd
  rw [tlc_ws]
  by_cases hws : isPySpace c = true
  · have hsp : c = ' ' := by
      have h1 := h c hc
      rw [hws] at h1
      simpa using h1
    subst hsp
    decide
  · rw [Bool.of_not_eq_true hws]
    rfl

theorem noTwoSp_map : ∀ l : List Char, noTwoSp l = true →
    noTwoSp (l.map toLowerChar) = true
  | [], _ => rfl
  | [_], _ => rfl
  | a :: b :: t, h => by
    rw [List.map_cons, List.map_cons]
    unfold noTwoSp
    rw [Bool.and_eq_true]
    constructor
    · rw [Bool.not_eq_true', tlc_ws, tlc_ws]
      exact noTwoSp_pair h
    · rw [show (toLowerChar b :: t.map toLowerChar) = (b :: t).map toLowerChar from
        rfl]
      exact noTwoSp_map (b :: t) (noTwoSp_tail h)

theorem headNotWS_map (l : List Char) (h : headNotWS l = true) :
    headNotWS (l.map toLowerChar) = true := by
  cases l with
  | nil => rfl
  | cons a t =>
    show (!isPySpace (toLowerChar a)) = true
    rw [tlc_ws]
    exact h

theorem lastNotWS_map (l : List Char) (h : lastNotWS l = true) :
    lastNotWS (l.map toLowerChar) = true := by
  rw [lastNotWS_iff] at h ⊢
  intro c hc
  rw [List.getLast?_map] at hc
  cases hx : l.getLast? with
  | none =>
    rw [hx] at hc
    cases hc
  | some d =>
    rw [hx] at hc
    cases hc
    rw [tlc_ws]
    exact h d hx

theorem noQuote_map (l : List Char) (h : noQuote l = true) :
    noQuote (l.map toLowerChar) = true := by
  have hk1 : ∀ q ∈ lowerPairs, q.1 ≠ '"' := by decide
  have hv1 : ∀ q ∈ lowerPairs, q.2 ≠ '"' := by decide
  have hk2 : ∀ q ∈ lowerPairs, q.1 ≠ '\x27' := by decide
  have hv2 : ∀ q ∈ lowerPairs, q.2 ≠ '\x27' := by decide
  unfold noQuote at h ⊢
  rw [List.all_eq_true] at h ⊢
  intro d hd
  rw [List.mem_map] at hd
  obtain ⟨c, hc, rfl⟩ := hd
  have hcq := h c hc
  rw [Bool.and_eq_true] at hcq
  rw [Bool.and_eq_true]
  constructor
  · exact decide_eq_true fun he =>
      absurd ((tlc_eq_special '"' hk1 hv1 c).mp he) (of_decide_eq_true hcq.1)
  · exact decide_eq_true fun he =>
      absurd ((tlc_eq_special '\x27' hk2 hv2 c).mp he) (of_decide_eq_true hcq.2)

theorem asciiOnly_map (l : List Char) (h : asciiOnly l = true) :
    asciiOnly (l.map toLowerChar) = true := by
  unfold asciiOnly at h ⊢
  rw [List.all_eq_true] at h ⊢
  intro d hd
  rw [List.mem_map] at hd
  obtain ⟨c, hc, rfl⟩ := hd
  exact decide_eq_true (toLower_ascii c (of_decide_eq_true (h c hc)))

theorem occ2_map (a b : Char)
    (ha : ∀ c, (toLowerChar c = a) ↔ (c = a))
    (hb : ∀ c, (toLowerChar c = b) ↔ (c = b)) :
    ∀ l : List Char, occ2 a b (l.map toLowerChar) = occ2 a b l
  | [] => rfl
  | [_] => rfl
  | x :: y :: t => by
    rw [List.map_cons, List.map_cons]
    unfold occ2
    have h2 : occ2 a b (toLowerChar y :: t.map toLowerChar) = occ2 a b (y :: t) := by
      rw [show (toLowerChar y :: t.map toLowerChar) = (y :: t).map toLowerChar from
        rfl]
      exact occ2_map a b ha hb (y :: t)
    rw [h2, decide_eq_decide.mpr (ha x), decide_eq_decide.mpr (hb y)]

theorem lowFix_map (l : List Char) : lowFix (l.map toLowerChar) = true := by
  unfold lowFix
  rw [List.all_eq_true]
  intro d hd
  rw [List.mem_map] at hd
  obtain ⟨c, _, rfl⟩ := hd
  exact decide_eq_true (tlc_idem c)

/-! ## The normal-form lemma and claim C2 -/

/-- On ASCII quote-free input, the output of the pipeline satisfies every
normal-form predicate. -/
theorem normCore_nf (l : List Char) (ha : asciiOnly l = true)
    (hq : noQuote l = true) :
    wsOk (normCore l) = true ∧ noTwoSp (normCore l) = true ∧
      headNotWS (normCore l) = true ∧ lastNotWS (normCore l) = true ∧
      noQuote (normCore l) = true ∧ asciiOnly (normCore l) = true ∧
      occ2 ' ' '/' (normCore l) = false ∧ occ2 '/' ' ' (normCore l) = false ∧
      lowFix (normCore l) = true := by
  have t1sub : ∀ c ∈ pyCollapseWS l, c = ' ' ∨ c ∈ l := fun c hc =>
    (collapse_mem false l c hc).imp id And.left
  have t1a : asciiOnly (pyCollapseWS l) = true := by
    unfold asciiOnly
    rw [List.all_eq_true]
    intro c hc
    rcases t1sub c hc with rfl | hm
    · decide
    · exact List.all_eq_true.mp ha c hm
  have t1q : noQuote (pyCollapseWS l) = true := by
    unfold noQuote
    rw [List.all_eq_true]
    intro c hc
    rcases t1sub c hc with rfl | hm
    · decide
    · exact List.all_eq_true.mp hq c hm
  have ht2 : stripStep (pyCollapseWS l) = pyStrip isPySpace (pyCollapseWS l) :=
    stripStep_eq_ws _ t1q
  set t2 := pyStrip isPySpace (pyCollapseWS l) with ht2def
  have t2sub : ∀ c ∈ t2, c ∈ pyCollapseWS l := pyStrip_sub _ _
  have t2ws : wsOk t2 = true := all_of_sub _ _ _ t2sub (collapse_wsOk false l)
  have t2n2 : noTwoSp t2 = true := pyStrip_noTwo _ _ (collapse_noTwo false l)
  have t2h : headNotWS t2 = true :=
    (headNotWS_iff _).mpr fun c hc => pyStrip_head_not _ _ _ hc
  have t2l : lastNotWS t2 = true :=
    (lastNotWS_iff _).mpr fun c hc => pyStrip_last_not _ _ _ hc
  have t2a : asciiOnly t2 = true := all_of_sub _ _ _ t2sub t1a
  have t2q : noQuote t2 = true := all_of_sub _ _ _ t2sub t1q
  have t3n2 : noTwoSp (repA t2) = true := repA_noTwo t2 t2n2
  have t3ws : wsOk (repA t2) = true :=
    all_of_slashsub _ (by decide) _ _ (repA_mem t2) t2ws
  have t3a : asciiOnly (repA t2) = true :=
    all_of_slashsub _ (by decide) _ _ (repA_mem t2) t2a
  have t3q : noQuote (repA t2) = true :=
    all_of_slashsub _ (by decide) _ _ (repA_mem t2) t2q
  have t3h : headNotWS (repA t2) = true := repA_headNot _ t2h
  have t3l : lastNotWS (repA t2) = true := repA_lastNot _ t2l
  have t4n2 : noTwoSp (repB (repA t2)) = true := repB_noTwo _ t3n2
  have t4occ : occ2 ' ' '/' (repB (repA t2)) = false := repB_occ _ t3n2
  have t4ws : wsOk (repB (repA t2)) = true :=
    all_of_slashsub _ (by decide) _ _ (repB_mem _) t3ws
  have t4a : asciiOnly (repB (repA t2)) = true :=
    all_of_slashsub _ (by decide) _ _ (repB_mem _) t3a
  have t4q : noQuote (repB (repA t2)) = true :=
    all_of_slashsub _ (by decide) _ _ (repB_mem _) t3q
  have t4h : headNotWS (repB (repA t2)) = true := repB_headNot _ t3h
  have t4l : lastNotWS (repB (repA t2)) = true := repB_lastNot _ t3l
  have t5n2 : noTwoSp (repC (repB (repA t2))) = true := repC_noTwo _ t4n2
  have t5occ1 : occ2 ' ' '/' (repC (repB (repA t2))) = false :=
    repC_occ1 _ t4n2 t4occ
  have t5occ2 : occ2 '/' ' ' (repC (repB (repA t2))) = false := repC_occ2 _ t4n2
  have t5ws : wsOk (repC (repB (repA t2))) = true :=
    all_of_slashsub _ (by decide) _ _ (repC_mem _) t4ws
  have t5a : asciiOnly (repC (repB (repA t2))) = true :=
    all_of_slashsub _ (by decide) _ _ (repC_mem _) t4a
  have t5q : noQuote (repC (repB (repA t2))) = true :=
    all_of_slashsub _ (by decide) _ _ (repC_mem _) t4q
  have t5h : headNotWS (repC (repB (repA t2))) = true := repC_headNot _ t4h
  have t5l : lastNotWS (repC (repB (repA t2))) = true := repC_lastNot _ t4l
  have hy : normCore l = (repC (repB (repA t2))).map toLowerChar := by
    unfold normCore
    rw [ht2, repDash_fix _ t5a, flatMap_uni_id _ t5a]
  have hsp : ∀ c, (toLowerChar c = ' ') ↔ (c = ' ') :=
    tlc_eq_special ' ' (by decide) (by decide)
  have hsl : ∀ c, (toLowerChar c = '/') ↔ (c = '/') :=
    tlc_eq_special '/' (by decide) (by decide)
  rw [hy]
  exact ⟨wsOk_map _ t5ws, noTwoSp_map _ t5n2, headNotWS_map _ t5h,
    lastNotWS_map _ t5l, noQuote_map _ t5q, asciiOnly_map _ t5a,
    by rw [occ2_map ' ' '/' hsp hsl]; exact t5occ1,
    by rw [occ2_map '/' ' ' hsl hsp]; exact t5occ2,
    lowFix_map _⟩

/-- C2 fails as stated: `normalize` is not idempotent.  On the CJK input
`中`, `unidecode` appends a trailing space after the pinyin
transliteration, which the (earlier) whitespace steps never see; and on
`" a"` the quote strip exposes a leading space that was protected by the
quote when the whitespace strip ran. -/
theorem C2_counterexample :
    normalize (normalize "中") ≠ normalize "中" ∧
      normalize (normalize "\" a\"") ≠ normalize "\" a\"" := by
  decide

/-- C2 (amended): `normalize` is idempotent on every string of ASCII
characters containing no straight double-quote and no straight
single-quote character.  In general idempotence fails: quote stripping
can expose whitespace or quotes that earlier pipeline stages no longer
see, and transliteration of non-ASCII text (curly quotes, CJK) can
introduce characters that the earlier stages would have rewritten. -/
theorem C2_theorem (s : String) (h : s.data.all okChar = true) :
    normalize (normalize s) = normalize s := by
  have ha : asciiOnly s.data = true := by
    unfold asciiOnly
    rw [List.all_eq_true] at h ⊢
    intro c hc
    have h1 := h c hc
    unfold okChar at h1
    rw [Bool.and_eq_true, Bool.and_eq_true] at h1
    exact h1.1.1
  have hq : noQuote s.data = true := by
    unfold noQuote
    rw [List.all_eq_true] at h ⊢
    intro c hc
    have h1 := h c hc
    unfold okChar at h1
    rw [Bool.and_eq_true, Bool.and_eq_true] at h1
    rw [Bool.and_eq_true]
    exact ⟨h1.1.2, h1.2⟩
  obtain ⟨n1, n2, n3, n4, n5, n6, n7, n8, n9⟩ := normCore_nf s.data ha hq
  show String.mk (normCore (normCore s.data)) = String.mk (normCore s.data)
  rw [normCore_fix _ n1 n2 n3 n4 n5 n6 n7 n8 n9]

/-- Witness for C2 at a concrete ASCII quote-free string. -/
theorem C2_witness :
    "  VITAMINA  C / B-12 ".data.all okChar = true ∧
      normalize (normalize "  VITAMINA  C / B-12 ") =
        normalize "  VITAMINA  C / B-12 " :=
  ⟨by decide, C2_theorem "  VITAMINA  C / B-12 " (by decide)⟩

/-- C10: `normalize` accepts any input without failing — `None` yields
the empty string, any other Python value is first coerced by `str(·)`,
so `Option String` covers all inputs, and the function is total — and
every character of its output is ASCII: the transliteration step maps
each character to ASCII text and the final lower-casing preserves
ASCII. -/
theorem C10_theorem :
    normalizeOpt none = "" ∧
      ∀ o : Option String, (normalizeOpt o).data.all (fun c => c.toNat < 128) = true := by
  refine ⟨rfl, ?_⟩
  intro o
  cases o with
  | none => rfl
  | some s =>
    show (normCore s.data).all _ = true
    unfold normCore
    rw [List.all_eq_true]
    intro c hc
    rw [List.mem_map] at hc
    obtain ⟨d, hd, rfl⟩ := hc
    rw [List.mem_flatMap] at hd
    obtain ⟨e, _, hde⟩ := hd
    have hda := List.all_eq_true.mp (uni_ascii e) d hde
    simpa using toLower_ascii d (by simpa using hda)

end Anvisa
